import Mathlib

/-!
Verification of the borrow-safety (reference-safety) analysis pass of the Move
compiler, a shallow embedding of language/move-compiler/src/cfgir/borrows/mod.rs.

The pass walks each command of a control-flow graph and applies borrow-state
operations (implemented in the sibling state module, consumed here through an
explicit operation record) to an abstract state, accumulating diagnostics.
Components that mod.rs consumes but that are outside the analyzed sources
(the borrow-state operations themselves, the unique map, the fixpoint engine)
are modelled from the design document and are marked as such.

Rust panics (assert macros, explicit panic calls) are modelled by returning
none; diagnostics are explicit lists threaded through the context.
-/

set_option linter.unusedVariables false
set_option linter.unnecessarySeqFocus false

namespace Move

/-- Source location, abstracted to a number. -/
abbrev Loc := Nat

/-- Local variable name. -/
abbrev Var := Nat

/-- Struct field name. -/
abbrev Field := Nat

/-- Global resource (struct) name. -/
abbrev StructName := Nat

/-- CFG block label. -/
abbrev Label := Nat

/-- Abstract value computed by an expression: either a plain (non-reference)
value or a reference identified by a borrow-graph node id. -/
inductive Value where
  | NonRef : Value
  | Ref : Nat → Value
deriving DecidableEq, Repr

/-- Value::is_ref from the state module interface as used by mod.rs. -/
def Value.is_ref : Value → Bool
  | .NonRef => false
  | .Ref _ => true

/-- An ordered sequence of abstract values. -/
abbrev Values := List Value

/-- Base (non-reference) type, abstracted to a number. -/
abbrev BaseType := Nat

/-- Single value type: a base type or a reference (with mutability) to one. -/
inductive SingleType where
  | Base : BaseType → SingleType
  | Ref : Bool → BaseType → SingleType
deriving DecidableEq, Repr

/-- Whether a single type is a non-reference type. -/
def SingleType.isBase : SingleType → Bool
  | .Base _ => true
  | .Ref _ _ => false

/-- Expression type: unit, a single value, or a tuple of single values. -/
inductive Type_ where
  | Unit : Type_
  | Single : SingleType → Type_
  | Multiple : List SingleType → Type_
deriving DecidableEq, Repr

/-- The list of single types an expression type declares. -/
def Type_.typesOf : Type_ → List SingleType
  | .Unit => []
  | .Single s => [s]
  | .Multiple ss => ss

/-- Modelled from the spec: the unique map from shared/unique_map.rs is not
among the analyzed sources. It is modelled as an association list with unique
keys whose iteration order is insertion order, matching the design document,
which numbers locals by declaration (arrival) order. -/
structure UniqueMap (K V : Type) where
  entries : List (K × V)
deriving DecidableEq, Repr

/-- UniqueMap::new. -/
def UniqueMap.empty : UniqueMap K V := ⟨[]⟩

/-- UniqueMap::add; fails (returns none) when the key is already present. -/
def UniqueMap.add [DecidableEq K] (m : UniqueMap K V) (k : K) (v : V) :
    Option (UniqueMap K V) :=
  if (m.entries.map Prod.fst).contains k then none
  else some ⟨m.entries ++ [(k, v)]⟩

/-- UniqueMap::get. -/
def UniqueMap.get [DecidableEq K] (m : UniqueMap K V) (k : K) : Option V :=
  (m.entries.find? (fun p => p.1 = k)).map Prod.snd

/-- The per-function analysis record of mod.rs: the canonical numbering of the
locals, assigned once at the start of the analysis of the function. -/
structure BorrowSafety where
  local_numbers : UniqueMap Var Nat
deriving DecidableEq, Repr

/-- Helper for BorrowSafety::new: adds the variables of the remaining
entries to the accumulated map, numbering from idx; the unwrap on a
duplicate variable is modelled as none. -/
def addNumbered (m : UniqueMap Var Nat) (idx : Nat) :
    List (Var × T) → Option (UniqueMap Var Nat)
  | [] => some m
  | (v, _) :: rest =>
    match m.add v idx with
    | none => none
    | some m2 => addNumbered m2 (idx + 1) rest

/-- BorrowSafety::new from mod.rs: enumerates the local-type map and gives
the local at iteration position idx the number idx. -/
def BorrowSafety.new (local_types : UniqueMap Var T) : Option BorrowSafety :=
  match addNumbered UniqueMap.empty 0 local_types.entries with
  | none => none
  | some m => some ⟨m⟩

/-- Annotation on a move of a local (hlir ast); only InferredLastUsage is
inspected by the pass. -/
inductive MoveOpAnnotation where
  | InferredLastUsage | InferredNoCopy | FromUser
deriving DecidableEq, Repr

/-- The matches test of the Move arm of exp in mod.rs. -/
def MoveOpAnnotation.isInferredLastUsage : MoveOpAnnotation → Bool
  | .InferredLastUsage => true
  | .InferredNoCopy => false
  | .FromUser => false

/-- Binary operators; Eq and Neq are treated specially by the pass, every
other arithmetic, logical or comparison operator falls in the uniform arm
(the remaining source operators behave identically to the ones listed). -/
inductive BinOp_ where
  | Eq | Neq | Add | Sub | Mul | Div | Lt | Gt | And | Or
deriving DecidableEq, Repr

/-- Builtin functions; BorrowGlobal and MoveFrom are treated specially, every
other builtin falls in the uniform generic-call arm. -/
inductive BuiltinFunction_ where
  | BorrowGlobal (mut_ : Bool) (t : StructName)
  | MoveFrom (t : StructName)
  | OtherBuiltin
deriving DecidableEq, Repr

/-- Assignment targets (hlir ast LValue): ignore, a variable, or a struct
unpack into nested targets. The location of the sp wrapper is inlined into
each constructor. -/
inductive LValue where
  | Ignore (loc : Loc)
  | Var (loc : Loc) (v : Var)
  | Unpack (loc : Loc) (fields : List (Field × LValue))

mutual
/-- An hlir expression: its type, the location of its unannotated expression
and the unannotated expression itself. -/
inductive Exp where
  | mk (ty : Type_) (loc : Loc) (exp : UnannotatedExp)
/-- Unannotated hlir expressions, one constructor per match arm of exp in
mod.rs; the ModuleCall fields used by the pass (acquires, arguments) are
inlined. Value, Constant, Spec and UnresolvedError are handled by one arm. -/
inductive UnannotatedExp where
  | Move (var : Var) ( annotation : MoveOpAnnotation)
  | Copy (var : Var)
  | BorrowLocal (mut_ : Bool) (var : Var)
  | Freeze (e : Exp)
  | Dereference (e : Exp)
  | Borrow (mut_ : Bool) (e : Exp) (f : Field)
  | Builtin (b : BuiltinFunction_) (e : Exp)
  | Vector (n : Nat) (e : Exp)
  | ModuleCall (acquires : List (StructName × Loc)) (arguments : Exp)
  | Unit
  | Value
  | Constant
  | Spec
  | UnresolvedError
  | Cast (e : Exp)
  | UnaryExp (e : Exp)
  | BinopExp (e1 : Exp) (op : BinOp_) (e2 : Exp)
  | Pack (fields : List (Field × Exp))
  | ExpList (items : List ExpListItem)
  | Unreachable
/-- An item of an expression list: a single expression or a splat. -/
inductive ExpListItem where
  | Single (e : Exp)
  | Splat (e : Exp)
end

/-- The type annotation of an expression. -/
def Exp.ty : Exp → Type_
  | .mk t _ _ => t

/-- The location of the unannotated expression of an expression. -/
def Exp.loc : Exp → Loc
  | .mk _ l _ => l

/-- The unannotated expression of an expression. -/
def Exp.exp : Exp → UnannotatedExp
  | .mk _ _ u => u

/-- Commands of a basic block, one constructor per match arm of command in
mod.rs; only the fields the pass reads are kept. -/
inductive Command_ where
  | Assign (ls : List LValue) (e : Exp)
  | Mutate (el : Exp) (er : Exp)
  | JumpIf (cond : Exp)
  | IgnoreAndPop (e : Exp)
  | Return (e : Exp)
  | Abort (e : Exp)
  | Jump
  | Break
  | Continue

/-- A command together with the location of its sp wrapper. -/
structure Command where
  loc : Loc
  cmd : Command_

/-- The interface of the borrow state as consumed by mod.rs. The sibling
state module is outside the analyzed sources, so the operations are taken as
an explicit record over an abstract state type and an abstract diagnostic
type; mod.rs calls them exactly through this surface. Each operation returns
the mutated state together with its diagnostics and produced values. -/
structure StateOps (σ δ : Type) where
  move_local : σ → Loc → Var → Bool → σ × List δ × Value
  copy_local : σ → Loc → Var → σ × List δ × Value
  borrow_local : σ → Loc → Bool → Var → σ × List δ × Value
  freeze : σ → Loc → Value → σ × List δ × Value
  dereference : σ → Loc → Value → σ × List δ × Value
  borrow_field : σ → Loc → Bool → Value → Field → σ × List δ × Value
  borrow_global : σ → Loc → Bool → StructName → σ × List δ × Value
  move_from : σ → Loc → StructName → σ × List δ × Value
  call : σ → Loc → Values → List (StructName × Loc) → Type_ → σ × List δ × Values
  mutate : σ → Loc → Value → σ × List δ
  assign_local : σ → Loc → Var → Value → σ × List δ
  release_value : σ → Value → σ
  release_values : σ → Values → σ
  return_ : σ → Loc → Values → σ × List δ
  abort : σ → σ
  canonicalize_locals : σ → UniqueMap Var Nat → σ
  initial : UniqueMap Var SingleType → List (StructName × Loc) → Bool → σ
  bind_arguments : σ → List (Var × SingleType) → σ

/-- The Context of mod.rs: the borrow state being mutated and the
accumulated diagnostics of the current command. -/
structure Context (σ δ : Type) where
  borrow_state : σ
  diags : List δ
deriving DecidableEq, Repr

/-- Context::add_diags from mod.rs. -/
def Context.add_diags (c : Context σ δ) (additional : List δ) : Context σ δ :=
  ⟨c.borrow_state, c.diags ++ additional⟩

/-- assert_single_value from the cfgir absint utilities as used by mod.rs:
panics (none) unless the value sequence has exactly one element. -/
def assert_single_value : Values → Option Value
  | [v] => some v
  | _ => none

/-- The per-operand block of the Eq and Neq arm of exp in mod.rs: a
reference operand is dereferenced before the comparison and the assert
macro requires the dereference to produce no diagnostic (none models that
panic); the dereference diagnostics are never added to the context. -/
def eqDeref (ops : StateOps σ δ) (l : Loc) (v : Value) (st : σ) : Option σ :=
  if v.is_ref then
    let r := ops.dereference st l v
    if r.2.1.isEmpty then some r.1 else none
  else some st

mutual

/-- exp from mod.rs: evaluates one expression, applying its borrow-state
operations to the context left to right and returning the produced value
sequence; none models a panic of one of the assert macros or of the
Unreachable arm. In the BinopExp arm the evaluation of the two operands,
identical at the head of the Eq and Neq source arm and of the uniform
source arm, is factored before the operator is inspected. -/
def exp (ops : StateOps σ δ) (context : Context σ δ) (parent_e : Exp) :
    Option (Context σ δ × Values) :=
  match parent_e with
  | .mk ty eloc ue =>
    match ue with
    | .Move var annotation =>
      let last_usage := annotation.isInferredLastUsage
      let r := ops.move_local context.borrow_state eloc var last_usage
      some (⟨r.1, context.diags ++ r.2.1⟩, [r.2.2])
    | .Copy var =>
      let r := ops.copy_local context.borrow_state eloc var
      some (⟨r.1, context.diags ++ r.2.1⟩, [r.2.2])
    | .BorrowLocal mut_ var =>
      let r := ops.borrow_local context.borrow_state eloc mut_ var
      if r.2.2.is_ref then some (⟨r.1, context.diags ++ r.2.1⟩, [r.2.2])
      else none
    | .Freeze e =>
      match exp ops context e with
      | none => none
      | some (c1, vs) =>
        match assert_single_value vs with
        | none => none
        | some evalue =>
          let r := ops.freeze c1.borrow_state eloc evalue
          some (⟨r.1, c1.diags ++ r.2.1⟩, [r.2.2])
    | .Dereference e =>
      match exp ops context e with
      | none => none
      | some (c1, vs) =>
        match assert_single_value vs with
        | none => none
        | some evalue =>
          let r := ops.dereference c1.borrow_state eloc evalue
          some (⟨r.1, c1.diags ++ r.2.1⟩, [r.2.2])
    | .Borrow mut_ e f =>
      match exp ops context e with
      | none => none
      | some (c1, vs) =>
        match assert_single_value vs with
        | none => none
        | some evalue =>
          let r := ops.borrow_field c1.borrow_state eloc mut_ evalue f
          some (⟨r.1, c1.diags ++ r.2.1⟩, [r.2.2])
    | .Builtin b e =>
      match exp ops context e with
      | none => none
      | some (c1, evalues) =>
        match b with
        | .BorrowGlobal mut_ t =>
          match assert_single_value evalues with
          | none => none
          | some v =>
            if v.is_ref then none
            else
              let r := ops.borrow_global c1.borrow_state eloc mut_ t
              some (⟨r.1, c1.diags ++ r.2.1⟩, [r.2.2])
        | .MoveFrom t =>
          match assert_single_value evalues with
          | none => none
          | some v =>
            if v.is_ref then none
            else
              let r := ops.move_from c1.borrow_state eloc t
              if r.2.2.is_ref then none
              else some (⟨r.1, c1.diags ++ r.2.1⟩, [r.2.2])
        | .OtherBuiltin =>
          let r := ops.call c1.borrow_state eloc evalues [] ty
          some (⟨r.1, c1.diags ++ r.2.1⟩, r.2.2)
    | .Vector n e =>
      match exp ops context e with
      | none => none
      | some (c1, evalues) =>
        if n = evalues.length then
          if evalues.all (fun v => !v.is_ref) then some (c1, [Value.NonRef])
          else none
        else none
    | .ModuleCall acquires arguments =>
      match exp ops context arguments with
      | none => none
      | some (c1, evalues) =>
        let r := ops.call c1.borrow_state eloc evalues acquires ty
        some (⟨r.1, c1.diags ++ r.2.1⟩, r.2.2)
    | .Unit => some (context, [])
    | .Value | .Constant | .Spec | .UnresolvedError => some (context, [Value.NonRef])
    | .Cast e | .UnaryExp e =>
      match exp ops context e with
      | none => none
      | some (c1, vs) =>
        match assert_single_value vs with
        | none => none
        | some v =>
          if v.is_ref then none
          else some (c1, [Value.NonRef])
    | .BinopExp e1 op e2 =>
      match exp ops context e1 with
      | none => none
      | some (c1, vs1) =>
        match assert_single_value vs1 with
        | none => none
        | some v1 =>
          match exp ops c1 e2 with
          | none => none
          | some (c2, vs2) =>
            match assert_single_value vs2 with
            | none => none
            | some v2 =>
              match op with
              | .Eq | .Neq =>
                match eqDeref ops e1.loc v1 c2.borrow_state with
                | none => none
                | some s3 =>
                  match eqDeref ops e1.loc v2 s3 with
                  | none => none
                  | some s4 => some (⟨s4, c2.diags⟩, [Value.NonRef])
              | _ =>
                if v1.is_ref then none
                else if v2.is_ref then none
                else some (c2, [Value.NonRef])
    | .Pack fields =>
      match packFields ops context fields with
      | none => none
      | some c1 => some (c1, [Value.NonRef])
    | .ExpList items => expListItems ops context items
    | .Unreachable => none

/-- The for_each over the Pack fields in exp: evaluates each field expression
and asserts it yields a single non-reference value. -/
def packFields (ops : StateOps σ δ) (context : Context σ δ) :
    List (Field × Exp) → Option (Context σ δ)
  | [] => some context
  | (_, e) :: rest =>
    match exp ops context e with
    | none => none
    | some (c1, vs) =>
      match assert_single_value vs with
      | none => none
      | some v =>
        if v.is_ref then none
        else packFields ops c1 rest

/-- The flat_map over the ExpList items in exp, concatenating the value
sequences of the items. -/
def expListItems (ops : StateOps σ δ) (context : Context σ δ) :
    List ExpListItem → Option (Context σ δ × Values)
  | [] => some (context, [])
  | item :: rest =>
    match exp_list_item ops context item with
    | none => none
    | some (c1, vs) =>
      match expListItems ops c1 rest with
      | none => none
      | some (c2, vs2) => some (c2, vs ++ vs2)

/-- exp_list_item from mod.rs. -/
def exp_list_item (ops : StateOps σ δ) (context : Context σ δ) :
    ExpListItem → Option (Context σ δ × Values)
  | .Single e => exp ops context e
  | .Splat e => exp ops context e

end

mutual

/-- lvalue from mod.rs: applies one assignment target to one value; the
Unpack arm asserts the value is not a reference and assigns NonRef to the
nested targets. -/
def lvalue (ops : StateOps σ δ) (context : Context σ δ) (l : LValue)
    (value : Value) : Option (Context σ δ) :=
  match l with
  | .Ignore _ => some ⟨ops.release_value context.borrow_state value, context.diags⟩
  | .Var loc v =>
    let r := ops.assign_local context.borrow_state loc v value
    some ⟨r.1, context.diags ++ r.2⟩
  | .Unpack _ fields =>
    if value.is_ref then none
    else unpackFields ops context fields

/-- The for_each over the Unpack fields in lvalue. -/
def unpackFields (ops : StateOps σ δ) (context : Context σ δ) :
    List (Field × LValue) → Option (Context σ δ)
  | [] => some context
  | (_, l) :: rest =>
    match lvalue ops context l Value.NonRef with
    | none => none
    | some c1 => unpackFields ops c1 rest

end

/-- The for_each over the zipped pairs in lvalues. -/
def lvaluesZipped (ops : StateOps σ δ) (context : Context σ δ) :
    List (LValue × Value) → Option (Context σ δ)
  | [] => some context
  | (l, v) :: rest =>
    match lvalue ops context l v with
    | none => none
    | some c1 => lvaluesZipped ops c1 rest

/-- lvalues from mod.rs: zips the targets with the values, the iteration
stopping at the shorter of the two sequences, and applies lvalue to each
pair. -/
def lvalues (ops : StateOps σ δ) (context : Context σ δ) (ls : List LValue)
    (values : Values) : Option (Context σ δ) :=
  lvaluesZipped ops context (ls.zip values)

/-- command from mod.rs: the per-command transfer function; none models a
panic of an assert macro or of the Break and Continue arms. -/
def command (ops : StateOps σ δ) (context : Context σ δ) (c : Command) :
    Option (Context σ δ) :=
  match c.cmd with
  | .Assign ls e =>
    match exp ops context e with
    | none => none
    | some (c1, values) => lvalues ops c1 ls values
  | .Mutate el er =>
    match exp ops context er with
    | none => none
    | some (c1, vs) =>
      match assert_single_value vs with
      | none => none
      | some value =>
        if value.is_ref then none
        else
          match exp ops c1 el with
          | none => none
          | some (c2, vsl) =>
            match assert_single_value vsl with
            | none => none
            | some lv =>
              let r := ops.mutate c2.borrow_state c.loc lv
              some ⟨r.1, c2.diags ++ r.2⟩
  | .JumpIf e =>
    match exp ops context e with
    | none => none
    | some (c1, vs) =>
      match assert_single_value vs with
      | none => none
      | some value =>
        if value.is_ref then none
        else some c1
  | .IgnoreAndPop e =>
    match exp ops context e with
    | none => none
    | some (c1, values) => some ⟨ops.release_values c1.borrow_state values, c1.diags⟩
  | .Return e =>
    match exp ops context e with
    | none => none
    | some (c1, values) =>
      let r := ops.return_ c1.borrow_state c.loc values
      some ⟨r.1, c1.diags ++ r.2⟩
  | .Abort e =>
    match exp ops context e with
    | none => none
    | some (c1, vs) =>
      match assert_single_value vs with
      | none => none
      | some value =>
        if value.is_ref then none
        else some ⟨ops.abort c1.borrow_state, c1.diags⟩
  | .Jump => some context
  | .Break => none
  | .Continue => none

/-- TransferFunctions::execute for BorrowSafety from mod.rs: builds a fresh
context over the incoming state with an empty diagnostics accumulator, runs
the command, canonicalizes the resulting borrow state with the local
numbering, and returns the post state together with the diagnostics. -/
def execute (ops : StateOps σ δ) (safety : BorrowSafety) (pre : σ)
    (cmd : Command) : Option (σ × List δ) :=
  match command ops ⟨pre, []⟩ cmd with
  | none => none
  | some context =>
    some (ops.canonicalize_locals context.borrow_state safety.local_numbers,
      context.diags)

/-- verify from mod.rs, parameterized by the external fixpoint engine
(absint.rs, outside the analyzed sources): builds the initial state, binds
the parameters, numbers the locals, canonicalizes the initial state and hands
everything to the engine; the per-label result and the diagnostics the engine
accumulated (which verify adds to the compilation environment) are returned.
The none case models the unwrap panic inside BorrowSafety::new. -/
def verify (analyze_function : κ → (σ → Command → Option (σ × List δ)) → σ → ρ × List δ)
    (ops : StateOps σ δ) (has_errors : Bool)
    (parameters : List (Var × SingleType)) (acquires : List (StructName × Loc))
    (locals : UniqueMap Var SingleType) (cfg : κ) : Option (ρ × List δ) :=
  match BorrowSafety.new locals with
  | none => none
  | some safety =>
    let initial_state0 := ops.initial locals acquires has_errors
    let initial_state1 := ops.bind_arguments initial_state0 parameters
    let initial_state :=
      ops.canonicalize_locals initial_state1 safety.local_numbers
    some (analyze_function cfg (execute ops safety) initial_state)

/-- Modelled from the spec: the user-facing diagnostic kinds of the error
taxonomy of the design document (the rendering of state.rs diagnostics is
outside the analyzed sources). -/
inductive MDiag where
  | UnassignedVariable (loc : Loc) (x : Var)
  | BorrowedLocalMoved (loc : Loc) (x : Var)
  | AssignWhileBorrowed (loc : Loc) (x : Var)
  | GlobalOrLocalAlreadyBorrowed (loc : Loc)
  | MissingAcquires (loc : Loc) (t : StructName)
  | InvalidReturnBorrow (loc : Loc)
deriving DecidableEq, Repr

/-- A borrowed location of the borrow graph: a local slot, a global resource
type, or a field projection of another reference node. -/
inductive Lbl where
  | loc_local (x : Var)
  | loc_global (t : StructName)
  | loc_field (parent : Nat) (f : Field)
deriving DecidableEq, Repr

/-- The status of a local slot: unassigned or holding a value. -/
inductive LocalStatus where
  | Unassigned
  | Assigned (v : Value)
deriving DecidableEq, Repr

/-- Modelled from the spec: the borrow state implemented by the sibling
state module (state.rs, outside the analyzed sources). It holds the local
slot statuses, the live borrow edges (source reference node, mutability,
borrowed location), a counter for fresh node ids, the read-only acquires
set and the prior-errors flag. -/
structure MState where
  locals : List (Var × LocalStatus)
  edges : List (Nat × Bool × Lbl)
  next_id : Nat
  acquires : List StructName
  prior_errors : Bool
deriving DecidableEq, Repr

/-- The status of a slot in a slot list, Unassigned when absent. -/
def lookupStatus : List (Var × LocalStatus) → Var → LocalStatus
  | [], _ => .Unassigned
  | (v, st) :: rest, x => if x = v then st else lookupStatus rest x

/-- Replaces the status of a slot in a slot list, appending when absent. -/
def setStatusList : List (Var × LocalStatus) → Var → LocalStatus →
    List (Var × LocalStatus)
  | [], x, st => [(x, st)]
  | (v, st0) :: rest, x, st =>
    if x = v then (v, st) :: rest else (v, st0) :: setStatusList rest x st

/-- The status of a local slot, Unassigned when the slot is unknown. -/
def MState.status (s : MState) (x : Var) : LocalStatus :=
  lookupStatus s.locals x

/-- Replaces the status of a local slot, adding the slot when absent. -/
def MState.setStatus (s : MState) (x : Var) (st : LocalStatus) : MState :=
  { s with locals := setStatusList s.locals x st }

/-- The live borrow edges whose borrowed location is the given one. -/
def MState.borrowsOn (s : MState) (l : Lbl) : List (Nat × Bool × Lbl) :=
  s.edges.filter (fun e => e.2.2 = l)

/-- Whether some live mutable borrow targets the given location. -/
def MState.mutBorrowOn (s : MState) (l : Lbl) : Bool :=
  s.edges.any (fun e => e.2.1 && e.2.2 = l)

/-- Removes the borrow edges whose source is the given reference node. -/
def MState.dropNode (s : MState) (id : Nat) : MState :=
  { s with edges := s.edges.filter (fun e => e.1 ≠ id) }

/-- Modelled from the spec: move_local requires the slot assigned and not
aliased by a live borrow; on success it transfers the value out and marks
the slot Unassigned. The last-use flag is an optimizer hint only. -/
def MState.move_local (s : MState) (loc : Loc) (x : Var) (_last_usage : Bool) :
    MState × List MDiag × Value :=
  match s.status x with
  | .Unassigned => (s, [.UnassignedVariable loc x], .NonRef)
  | .Assigned v =>
    let ds : List MDiag :=
      if (s.borrowsOn (.loc_local x)).isEmpty then []
      else [.BorrowedLocalMoved loc x]
    (s.setStatus x .Unassigned, ds, v)

/-- Modelled from the spec: copy_local requires the slot assigned; copying a
reference duplicates the reference as a fresh node with the same borrow
set, copying a plain value has no aliasing effect. -/
def MState.copy_local (s : MState) (loc : Loc) (x : Var) :
    MState × List MDiag × Value :=
  match s.status x with
  | .Unassigned => (s, [.UnassignedVariable loc x], .NonRef)
  | .Assigned .NonRef => (s, [], .NonRef)
  | .Assigned (.Ref id) =>
    let id2 := s.next_id
    let copied := (s.edges.filter (fun e => e.1 = id)).map
      (fun e => (id2, e.2.1, e.2.2))
    ({ s with edges := s.edges ++ copied, next_id := s.next_id + 1 }, [], .Ref id2)

/-- Modelled from the spec: assign_local rejects overwriting a slot some
live borrow depends on, releases the node of the old value and installs the
new value. -/
def MState.assign_local (s : MState) (loc : Loc) (x : Var) (value : Value) :
    MState × List MDiag :=
  let ds : List MDiag :=
    if (s.borrowsOn (.loc_local x)).isEmpty then []
    else [.AssignWhileBorrowed loc x]
  let s1 :=
    match s.status x with
    | .Assigned (.Ref old) => s.dropNode old
    | _ => s
  (s1.setStatus x (.Assigned value), ds)

/-- Modelled from the spec: borrow_local requires the slot assigned; a
mutable borrow requires no live borrow of the slot, an immutable borrow
requires no live mutable borrow of it; a fresh node edged to the local is
produced. -/
def MState.borrow_local (s : MState) (loc : Loc) (mut_ : Bool) (x : Var) :
    MState × List MDiag × Value :=
  let ds1 : List MDiag :=
    match s.status x with
    | .Unassigned => [.UnassignedVariable loc x]
    | .Assigned _ => []
  let conflict :=
    if mut_ then !(s.borrowsOn (.loc_local x)).isEmpty
    else s.mutBorrowOn (.loc_local x)
  let ds2 : List MDiag :=
    if conflict then [.GlobalOrLocalAlreadyBorrowed loc] else []
  let id := s.next_id
  let s2 : MState :=
    { s with
        edges := s.edges ++ [(id, mut_, .loc_local x)],
        next_id := s.next_id + 1 }
  (s2, ds1 ++ ds2, .Ref id)

/-- Modelled from the spec: borrow_field applies the field-narrowed
exclusivity rule and produces a fresh node whose borrow set is the field
projection of the parent node. -/
def MState.borrow_field (s : MState) (loc : Loc) (mut_ : Bool) (v : Value)
    (f : Field) : MState × List MDiag × Value :=
  match v with
  | .NonRef =>
    let id := s.next_id
    ({ s with next_id := s.next_id + 1 }, [], .Ref id)
  | .Ref parent =>
    let conflict :=
      if mut_ then !(s.borrowsOn (.loc_field parent f)).isEmpty
      else s.mutBorrowOn (.loc_field parent f)
    let ds : List MDiag :=
      if conflict then [.GlobalOrLocalAlreadyBorrowed loc] else []
    let id := s.next_id
    let s2 : MState :=
      { s with
          edges := s.edges ++ [(id, mut_, .loc_field parent f)],
          next_id := s.next_id + 1 }
    (s2, ds, .Ref id)

/-- Modelled from the spec: freeze converts a mutable reference to an
immutable one with an identical borrow set, legal unconditionally. -/
def MState.freeze (s : MState) (loc : Loc) (v : Value) :
    MState × List MDiag × Value :=
  match v with
  | .NonRef => (s, [], v)
  | .Ref id =>
    let s2 : MState :=
      { s with
          edges := s.edges.map
            (fun e => if e.1 = id then (e.1, false, e.2.2) else e) }
    (s2, [], .Ref id)

/-- Modelled from the spec: dereference is always legal, yields a plain
value and keeps the reference node; it never produces a diagnostic. -/
def MState.dereference (s : MState) (loc : Loc) (v : Value) :
    MState × List MDiag × Value :=
  (s, [], .NonRef)

/-- Modelled from the spec: borrow_global requires the resource type in the
acquires set and applies the borrow_local exclusivity rules keyed by the
resource type. -/
def MState.borrow_global (s : MState) (loc : Loc) (mut_ : Bool)
    (t : StructName) : MState × List MDiag × Value :=
  let ds1 : List MDiag :=
    if s.acquires.contains t then [] else [.MissingAcquires loc t]
  let conflict :=
    if mut_ then !(s.borrowsOn (.loc_global t)).isEmpty
    else s.mutBorrowOn (.loc_global t)
  let ds2 : List MDiag :=
    if conflict then [.GlobalOrLocalAlreadyBorrowed loc] else []
  let id := s.next_id
  let s2 : MState :=
    { s with
        edges := s.edges ++ [(id, mut_, .loc_global t)],
        next_id := s.next_id + 1 }
  (s2, ds1 ++ ds2, .Ref id)

/-- Modelled from the spec: move_from requires the resource type in the
acquires set and no live borrow of it; it yields a plain value. -/
def MState.move_from (s : MState) (loc : Loc) (t : StructName) :
    MState × List MDiag × Value :=
  let ds1 : List MDiag :=
    if s.acquires.contains t then [] else [.MissingAcquires loc t]
  let ds2 : List MDiag :=
    if (s.borrowsOn (.loc_global t)).isEmpty then []
    else [.GlobalOrLocalAlreadyBorrowed loc]
  (s, ds1 ++ ds2, .NonRef)

/-- Helper of the call model: one result value per declared return type,
references receiving successive fresh node ids starting at n. -/
def buildVals (n : Nat) : List SingleType → Values
  | [] => []
  | .Base _ :: rest => Value.NonRef :: buildVals (n + 1) rest
  | .Ref _ _ :: rest => Value.Ref n :: buildVals (n + 1) rest

/-- Helper of the call model: the borrow edges of the produced reference
values, each conservatively borrowing every target of the reference
arguments. -/
def buildEdges (targets : List (Bool × Lbl)) (n : Nat) :
    List SingleType → List (Nat × Bool × Lbl)
  | [] => []
  | .Base _ :: rest => buildEdges targets (n + 1) rest
  | .Ref m _ :: rest =>
    targets.map (fun t => (n, m, t.2)) ++ buildEdges targets (n + 1) rest

/-- Modelled from the spec: call treats every reference argument as escaping
into the callee; a reference result conservatively borrows the union of the
borrow targets of the reference arguments, plain results carry no aliasing;
afterwards the transient argument nodes are released. The acquires argument
of the callee is not consulted: verifying the acquires obligation of the
callee is the business of the analysis of the callee itself. -/
def MState.call (s : MState) (loc : Loc) (args : Values)
    (acquires : List (StructName × Loc)) (ret_ty : Type_) :
    MState × List MDiag × Values :=
  let argIds := args.filterMap (fun v => match v with
    | .Ref id => some id
    | .NonRef => none)
  let targets := (s.edges.filter (fun e => argIds.contains e.1)).map
    (fun e => (e.2.1, e.2.2))
  let tys := ret_ty.typesOf
  let values := buildVals s.next_id tys
  let newEdges := buildEdges targets s.next_id tys
  let remaining := s.edges.filter (fun e => !argIds.contains e.1)
  ({ s with edges := remaining ++ newEdges, next_id := s.next_id + tys.length },
   [], values)

/-- Modelled from the spec: mutate requires a live mutable reference. -/
def MState.mutate (s : MState) (loc : Loc) (v : Value) : MState × List MDiag :=
  match v with
  | .NonRef => (s, [])
  | .Ref id =>
    if s.edges.any (fun e => e.1 = id && e.2.1) then (s, [])
    else (s, [.GlobalOrLocalAlreadyBorrowed loc])

/-- Modelled from the spec: assigning no further use to a value drops its
node when it is a reference. -/
def MState.release_value (s : MState) (v : Value) : MState :=
  match v with
  | .NonRef => s
  | .Ref id => s.dropNode id

/-- Modelled from the spec: release_values releases every value in turn. -/
def MState.release_values (s : MState) (vs : Values) : MState :=
  vs.foldl MState.release_value s

/-- Modelled from the spec: a returned reference may not borrow from a local
slot about to go out of scope. -/
def MState.return_ (s : MState) (loc : Loc) (vs : Values) :
    MState × List MDiag :=
  let ds := vs.flatMap (fun v => match v with
    | .NonRef => []
    | .Ref id =>
      if s.edges.any (fun e => e.1 = id &&
          match e.2.2 with
          | .loc_local _ => true
          | _ => false) then
        [MDiag.InvalidReturnBorrow loc]
      else [])
  (s, ds)

/-- Modelled from the spec: abort terminates abnormally; no further check. -/
def MState.abort (s : MState) : MState := s

/-- Renames a node id through an association list, identity when unmapped. -/
def renameId (ren : List (Nat × Nat)) (i : Nat) : Nat :=
  match ren.find? (fun p => p.1 = i) with
  | none => i
  | some p => p.2

/-- Renames the parent node inside a borrowed location. -/
def renameLbl (ren : List (Nat × Nat)) : Lbl → Lbl
  | .loc_local x => .loc_local x
  | .loc_global t => .loc_global t
  | .loc_field parent f => .loc_field (renameId ren parent) f

/-- Modelled from the spec: canonicalize_locals rewrites the reference node
ids into the canonical slot-index space given by the local numbering, so
states from different CFG paths are structurally comparable. -/
def MState.canonicalize_locals (s : MState) (nums : UniqueMap Var Nat) :
    MState :=
  let ren := nums.entries.filterMap (fun p =>
    match s.status p.1 with
    | .Assigned (.Ref id) => some (id, p.2)
    | _ => none)
  { s with
    edges := s.edges.map (fun e => (renameId ren e.1, e.2.1, renameLbl ren e.2.2)),
    locals := s.locals.map (fun p =>
      match p.2 with
      | .Assigned (.Ref id) => (p.1, .Assigned (.Ref (renameId ren id)))
      | st => (p.1, st)) }

/-- Modelled from the spec: the initial state of a function has every local
unassigned, no live borrow, and the declared acquires set. -/
def MState.initial (locals : UniqueMap Var SingleType)
    (acquires : List (StructName × Loc)) (has_errors : Bool) : MState :=
  { locals := locals.entries.map (fun p => (p.1, LocalStatus.Unassigned)),
    edges := [],
    next_id := 0,
    acquires := acquires.map Prod.fst,
    prior_errors := has_errors }

/-- Modelled from the spec: bind_arguments assigns the parameter slots,
reference parameters being seeded as fresh borrow-graph roots. -/
def MState.bind_arguments (s : MState) (params : List (Var × SingleType)) :
    MState :=
  params.foldl (fun acc p =>
    match p.2 with
    | .Base _ => acc.setStatus p.1 (.Assigned .NonRef)
    | .Ref _ _ =>
      { acc.setStatus p.1 (.Assigned (.Ref acc.next_id)) with
        next_id := acc.next_id + 1 }) s

/-- The spec-modelled borrow state packaged as the operation record consumed
by the transfer functions of mod.rs. -/
def specOps : StateOps MState MDiag :=
  { move_local := MState.move_local,
    copy_local := MState.copy_local,
    borrow_local := MState.borrow_local,
    freeze := MState.freeze,
    dereference := MState.dereference,
    borrow_field := MState.borrow_field,
    borrow_global := MState.borrow_global,
    move_from := MState.move_from,
    call := MState.call,
    mutate := MState.mutate,
    assign_local := MState.assign_local,
    release_value := MState.release_value,
    release_values := MState.release_values,
    return_ := MState.return_,
    abort := MState.abort,
    canonicalize_locals := MState.canonicalize_locals,
    initial := MState.initial,
    bind_arguments := MState.bind_arguments }

/-- Prepends already-accumulated diagnostics to the context of a result. -/
@[simp] def prependDiagsC (d : List δ) (c : Context σ δ) : Context σ δ :=
  ⟨c.borrow_state, d ++ c.diags⟩

/-- Prepends already-accumulated diagnostics to an expression result. -/
@[simp] def prependDiags (d : List δ) (r : Context σ δ × Values) : Context σ δ × Values :=
  (prependDiagsC d r.1, r.2)

mutual
/-- The static arity the design document assigns to each expression form:
Unit yields no value, lists concatenate their items, calls yield one value
per declared return type, every other form yields exactly one value. This
definition follows the words of the specification and is compared against
the evaluator. -/
def expArity : Exp → Nat
  | .mk ty _ ue =>
    match ue with
    | .Unit => 0
    | .Builtin b _ =>
      match b with
      | .BorrowGlobal _ _ => 1
      | .MoveFrom _ => 1
      | .OtherBuiltin => ty.typesOf.length
    | .ModuleCall _ _ => ty.typesOf.length
    | .ExpList items => itemsArity items
    | .Move _ _ => 1
    | .Copy _ => 1
    | .BorrowLocal _ _ => 1
    | .Freeze _ => 1
    | .Dereference _ => 1
    | .Borrow _ _ _ => 1
    | .Vector _ _ => 1
    | .Value => 1
    | .Constant => 1
    | .Spec => 1
    | .UnresolvedError => 1
    | .Cast _ => 1
    | .UnaryExp _ => 1
    | .BinopExp _ _ _ => 1
    | .Pack _ => 1
    | .Unreachable => 1
/-- The static arity of a list of expression-list items. -/
def itemsArity : List ExpListItem → Nat
  | [] => 0
  | i :: rest => itemArity i + itemsArity rest
/-- The static arity of one expression-list item. -/
def itemArity : ExpListItem → Nat
  | .Single e => expArity e
  | .Splat e => expArity e
end

/-- A typing environment: the declared single types of the locals. -/
abbrev TypeEnv := List (Var × SingleType)

/-- The declared type of a local, when any. -/
def lookupTy (Γ : TypeEnv) (x : Var) : Option SingleType :=
  (Γ.find? (fun p => p.1 = x)).map Prod.snd

/-- A value is compatible with a single type when a base type carries a
plain value; reference types are unconstrained (a joined or best-effort
reference slot may hold a plain placeholder). -/
def kindOk (τ : SingleType) (v : Value) : Bool :=
  !τ.isBase || !v.is_ref

/-- Pointwise compatibility of a value sequence with a type list, lengths
included. -/
def kindsOk : List SingleType → Values → Bool
  | [], [] => true
  | τ :: ts, v :: vs => kindOk τ v && kindsOk ts vs
  | _, _ => false

/-- A base-typed local never holds a reference value. -/
def baseOk (s : MState) (Γ : TypeEnv) (x : Var) : Bool :=
  match lookupTy Γ x with
  | none => true
  | some τ =>
    if τ.isBase then
      match s.status x with
      | .Unassigned => true
      | .Assigned v => !v.is_ref
    else true

/-- The state invariant of the no-panic argument: every declared base-typed
local holds a plain value when assigned. -/
def StateOK (Γ : TypeEnv) (s : MState) : Bool :=
  Γ.all (fun p => baseOk s Γ p.1)

/-- The expression type declares exactly one value. -/
def tyIsSingle (ty : Type_) : Bool :=
  ty.typesOf.length = 1

/-- The expression type declares exactly one plain value. -/
def tyIsSingleBase (ty : Type_) : Bool :=
  match ty.typesOf with
  | [τ] => τ.isBase
  | _ => false

/-- The expression type declares exactly one reference value. -/
def tyIsSingleRef (ty : Type_) : Bool :=
  match ty.typesOf with
  | [τ] => !τ.isBase
  | _ => false

/-- The declared types of one expression-list item. -/
def itemTypes : ExpListItem → List SingleType
  | .Single e => e.ty.typesOf
  | .Splat e => e.ty.typesOf

/-- The concatenated declared types of a list of expression-list items. -/
def itemsTypes : List ExpListItem → List SingleType
  | [] => []
  | .Single e :: rest => e.ty.typesOf ++ itemsTypes rest
  | .Splat e :: rest => e.ty.typesOf ++ itemsTypes rest

mutual
/-- The well-typedness discipline the earlier compiler passes guarantee, as
far as the no-panic argument needs it: operand arities match the declared
types, operands asserted plain are base-typed, moved and copied locals carry
their declared type, and unreachable code is absent. -/
def wellTyped (Γ : TypeEnv) : Exp → Bool
  | .mk ty _ ue =>
    match ue with
    | .Move x _ | .Copy x =>
      match lookupTy Γ x, ty.typesOf with
      | some τ, [τ2] => τ = τ2
      | _, _ => false
    | .BorrowLocal _ _ => tyIsSingleRef ty
    | .Freeze e => wellTyped Γ e && tyIsSingle e.ty && tyIsSingleRef ty
    | .Dereference e => wellTyped Γ e && tyIsSingle e.ty && tyIsSingle ty
    | .Borrow _ e _ => wellTyped Γ e && tyIsSingle e.ty && tyIsSingleRef ty
    | .Builtin b e =>
      match b with
      | .BorrowGlobal _ _ =>
        wellTyped Γ e && tyIsSingleBase e.ty && tyIsSingleRef ty
      | .MoveFrom _ => wellTyped Γ e && tyIsSingleBase e.ty && tyIsSingle ty
      | .OtherBuiltin => wellTyped Γ e
    | .Vector n e =>
      wellTyped Γ e && (n = e.ty.typesOf.length : Bool) &&
        e.ty.typesOf.all SingleType.isBase && tyIsSingle ty
    | .ModuleCall _ arguments => wellTyped Γ arguments
    | .Unit => ty.typesOf.length = 0
    | .Value | .Constant | .Spec | .UnresolvedError => tyIsSingle ty
    | .Cast e | .UnaryExp e =>
      wellTyped Γ e && tyIsSingleBase e.ty && tyIsSingle ty
    | .BinopExp e1 op e2 =>
      wellTyped Γ e1 && wellTyped Γ e2 && tyIsSingle ty &&
        tyIsSingle e1.ty && tyIsSingle e2.ty &&
        (match op with
          | .Eq | .Neq => true
          | .Add | .Sub | .Mul | .Div | .Lt | .Gt | .And | .Or =>
            tyIsSingleBase e1.ty && tyIsSingleBase e2.ty)
    | .Pack fields => packWellTyped Γ fields && tyIsSingle ty
    | .ExpList items =>
      itemsWellTyped Γ items && ty.typesOf = itemsTypes items
    | .Unreachable => false
/-- Well-typedness of Pack fields: each field expression is well typed with
a single base type. -/
def packWellTyped (Γ : TypeEnv) : List (Field × Exp) → Bool
  | [] => true
  | (_, e) :: rest => wellTyped Γ e && tyIsSingleBase e.ty && packWellTyped Γ rest
/-- Well-typedness of a list of expression-list items. -/
def itemsWellTyped (Γ : TypeEnv) : List ExpListItem → Bool
  | [] => true
  | .Single e :: rest => wellTyped Γ e && itemsWellTyped Γ rest
  | .Splat e :: rest => wellTyped Γ e && itemsWellTyped Γ rest
end

/-- Well-typedness of one assignment target against the type of the value
it receives: an unpack target requires a plain value, a variable target of a
declared base-typed local requires a base-typed value. -/
def lvalueWT (Γ : TypeEnv) (l : LValue) (τ : SingleType) : Bool :=
  match l with
  | .Ignore _ => true
  | .Var _ v =>
    match lookupTy Γ v with
    | none => true
    | some τv => !τv.isBase || τ.isBase
  | .Unpack _ _ => τ.isBase

/-- Well-typedness of the assignment targets against the declared types of
the assigned expression, positionally up to the shorter sequence. -/
def lvaluesWT (Γ : TypeEnv) (ls : List LValue) (tys : List SingleType) : Bool :=
  (ls.zip tys).all (fun p => lvalueWT Γ p.1 p.2)

/-- Well-typedness of a command, as far as the no-panic argument needs it:
operand arities and plainness match, and the CFG builder has lowered Break
and Continue away. -/
def cmdWellTyped (Γ : TypeEnv) (c : Command) : Bool :=
  match c.cmd with
  | .Assign ls e => wellTyped Γ e && lvaluesWT Γ ls e.ty.typesOf
  | .Mutate el er =>
    wellTyped Γ er && tyIsSingleBase er.ty && wellTyped Γ el && tyIsSingle el.ty
  | .JumpIf e => wellTyped Γ e && tyIsSingleBase e.ty
  | .IgnoreAndPop e => wellTyped Γ e
  | .Return e => wellTyped Γ e
  | .Abort e => wellTyped Γ e && tyIsSingleBase e.ty
  | .Jump => true
  | .Break => false
  | .Continue => false

/-- One borrow-state operation invocation, recorded for evaluation-order
statements. -/
inductive Event where
  | EMove (l : Loc) (x : Var) (last : Bool)
  | ECopy (l : Loc) (x : Var)
  | EBorrowLocal (l : Loc) (m : Bool) (x : Var)
  | EFreeze (l : Loc)
  | EDeref (l : Loc)
  | EBorrowField (l : Loc) (m : Bool) (f : Field)
  | EBorrowGlobal (l : Loc) (m : Bool) (t : StructName)
  | EMoveFrom (l : Loc) (t : StructName)
  | ECall (l : Loc) (acq : List (StructName × Loc)) (ty : Type_)
  | EMutate (l : Loc)
  | EAssign (l : Loc) (x : Var)
  | EReleaseValue
  | EReleaseValues
  | EReturn (l : Loc)
  | EAbort
  | ECanon
deriving DecidableEq, Repr

/-- An operation record whose state is the sequence of borrow-state
operations applied so far: each operation appends its event and produces
no diagnostic; values are synthesized so the asserted shapes hold
(borrow forms produce references, calls produce one value per declared
return type). It makes the order in which mod.rs applies the operations
directly observable. -/
def traceOps : StateOps (List Event) Empty :=
  { move_local := fun s l x last => (s ++ [.EMove l x last], [], .NonRef),
    copy_local := fun s l x => (s ++ [.ECopy l x], [], .NonRef),
    borrow_local := fun s l m x => (s ++ [.EBorrowLocal l m x], [], .Ref 0),
    freeze := fun s l _ => (s ++ [.EFreeze l], [], .Ref 0),
    dereference := fun s l _ => (s ++ [.EDeref l], [], .NonRef),
    borrow_field := fun s l m _ f => (s ++ [.EBorrowField l m f], [], .Ref 0),
    borrow_global := fun s l m t => (s ++ [.EBorrowGlobal l m t], [], .Ref 0),
    move_from := fun s l t => (s ++ [.EMoveFrom l t], [], .NonRef),
    call := fun s l _ acq ty =>
      (s ++ [.ECall l acq ty], [],
        ty.typesOf.map (fun τ => if τ.isBase then Value.NonRef else Value.Ref 0)),
    mutate := fun s l _ => (s ++ [.EMutate l], []),
    assign_local := fun s l x _ => (s ++ [.EAssign l x], []),
    release_value := fun s _ => s ++ [.EReleaseValue],
    release_values := fun s _ => s ++ [.EReleaseValues],
    return_ := fun s l _ => (s ++ [.EReturn l], []),
    abort := fun s => s ++ [.EAbort],
    canonicalize_locals := fun s _ => s ++ [.ECanon],
    initial := fun _ _ _ => [],
    bind_arguments := fun s _ => s }

/-- A one-local demonstration state (local 0 assigned a plain value) used by
concrete witnesses. -/
def demoState : MState :=
  { locals := [(0, .Assigned .NonRef)], edges := [], next_id := 0,
    acquires := [], prior_errors := false }

/-- The demonstration state after an immutable borrow of local 0. -/
def demoStateB : MState :=
  { locals := [(0, .Assigned .NonRef)], edges := [(0, false, .loc_local 0)],
    next_id := 1, acquires := [], prior_errors := false }

/-- The demonstration state after a mutable borrow of local 0. -/
def demoStateBm : MState :=
  { locals := [(0, .Assigned .NonRef)], edges := [(0, true, .loc_local 0)],
    next_id := 1, acquires := [], prior_errors := false }

/-- A demonstration state whose only local is unassigned. -/
def demoUnassigned : MState :=
  { locals := [(0, .Unassigned)], edges := [], next_id := 0,
    acquires := [], prior_errors := false }

mutual

theorem exp_diag_shift (ops : StateOps σ δ) (e : Exp) (s : σ) (d : List δ) :
    exp ops ⟨s, d⟩ e = (exp ops ⟨s, []⟩ e).map (prependDiags d) := by
  cases e with
  | mk ty eloc ue =>
    cases ue with
    | Move var ann => rw [exp, exp]; simp [prependDiags, prependDiagsC]
    | Copy var => rw [exp, exp]; simp [prependDiags, prependDiagsC]
    | BorrowLocal mut_ var =>
      rw [exp, exp]
      split <;> simp [prependDiags, prependDiagsC, List.append_assoc]
    | Freeze e1 =>
      rw [exp, exp, exp_diag_shift ops e1 s d]
      cases hre : exp ops ⟨s, []⟩ e1 with
      | none => simp
      | some r =>
        obtain ⟨⟨bs1, ds1⟩, vs⟩ := r
        simp only [Option.map_some', prependDiags, prependDiagsC]
        cases hv : assert_single_value vs with
        | none => simp [hv]
        | some v => simp [hv, List.append_assoc]
    | Dereference e1 =>
      rw [exp, exp, exp_diag_shift ops e1 s d]
      cases hre : exp ops ⟨s, []⟩ e1 with
      | none => simp
      | some r =>
        obtain ⟨⟨bs1, ds1⟩, vs⟩ := r
        simp only [Option.map_some', prependDiags, prependDiagsC]
        cases hv : assert_single_value vs with
        | none => simp [hv]
        | some v => simp [hv, List.append_assoc]
    | Borrow mut_ e1 f =>
      rw [exp, exp, exp_diag_shift ops e1 s d]
      cases hre : exp ops ⟨s, []⟩ e1 with
      | none => simp
      | some r =>
        obtain ⟨⟨bs1, ds1⟩, vs⟩ := r
        simp only [Option.map_some', prependDiags, prependDiagsC]
        cases hv : assert_single_value vs with
        | none => simp [hv]
        | some v => simp [hv, List.append_assoc]
    | Builtin b e1 =>
      rw [exp, exp, exp_diag_shift ops e1 s d]
      cases hre : exp ops ⟨s, []⟩ e1 with
      | none => simp
      | some r =>
        obtain ⟨⟨bs1, ds1⟩, vs⟩ := r
        simp only [Option.map_some', prependDiags, prependDiagsC]
        cases b with
        | BorrowGlobal mut_ t =>
          cases hv : assert_single_value vs with
          | none => simp [hv]
          | some v => cases hvr : v.is_ref <;> simp [hv, hvr, List.append_assoc]
        | MoveFrom t =>
          cases hv : assert_single_value vs with
          | none => simp [hv]
          | some v =>
            cases hvr : v.is_ref with
            | true => simp [hv, hvr]
            | false =>
              cases hmf : (ops.move_from bs1 eloc t).2.2.is_ref with
              | true => simp [hv, hvr, hmf]
              | false => simp [hv, hvr, hmf, List.append_assoc]
        | OtherBuiltin => simp [List.append_assoc]
    | Vector n e1 =>
      rw [exp, exp, exp_diag_shift ops e1 s d]
      cases hre : exp ops ⟨s, []⟩ e1 with
      | none => simp
      | some r =>
        obtain ⟨⟨bs1, ds1⟩, vs⟩ := r
        simp only [Option.map_some', prependDiags, prependDiagsC]
        by_cases hn : n = vs.length
        · by_cases ha : vs.all (fun v => !v.is_ref) = true
          · simp [hn, ha]
          · simp [hn, ha]
        · simp [hn]
    | ModuleCall acq args =>
      rw [exp, exp, exp_diag_shift ops args s d]
      cases hre : exp ops ⟨s, []⟩ args with
      | none => simp
      | some r =>
        obtain ⟨⟨bs1, ds1⟩, vs⟩ := r
        simp [prependDiags, prependDiagsC, List.append_assoc]
    | Unit => rw [exp, exp]; simp [prependDiags, prependDiagsC]
    | Value => rw [exp, exp]; simp [prependDiags, prependDiagsC]
    | Constant => rw [exp, exp]; simp [prependDiags, prependDiagsC]
    | Spec => rw [exp, exp]; simp [prependDiags, prependDiagsC]
    | UnresolvedError => rw [exp, exp]; simp [prependDiags, prependDiagsC]
    | Cast e1 =>
      rw [exp, exp, exp_diag_shift ops e1 s d]
      cases hre : exp ops ⟨s, []⟩ e1 with
      | none => simp
      | some r =>
        obtain ⟨⟨bs1, ds1⟩, vs⟩ := r
        simp only [Option.map_some', prependDiags, prependDiagsC]
        cases hv : assert_single_value vs with
        | none => simp [hv]
        | some v => cases hvr : v.is_ref <;> simp [hv, hvr]
    | UnaryExp e1 =>
      rw [exp, exp, exp_diag_shift ops e1 s d]
      cases hre : exp ops ⟨s, []⟩ e1 with
      | none => simp
      | some r =>
        obtain ⟨⟨bs1, ds1⟩, vs⟩ := r
        simp only [Option.map_some', prependDiags, prependDiagsC]
        cases hv : assert_single_value vs with
        | none => simp [hv]
        | some v => cases hvr : v.is_ref <;> simp [hv, hvr]
    | BinopExp e1 op e2 =>
      rw [exp, exp, exp_diag_shift ops e1 s d]
      cases hre1 : exp ops ⟨s, []⟩ e1 with
      | none => simp
      | some r1 =>
        obtain ⟨⟨bs1, ds1⟩, vs1⟩ := r1
        simp only [Option.map_some', prependDiags, prependDiagsC]
        cases hv1 : assert_single_value vs1 with
        | none => simp [hv1]
        | some v1 =>
          simp only [hv1]
          rw [exp_diag_shift ops e2 bs1 (d ++ ds1), exp_diag_shift ops e2 bs1 ds1]
          cases hre2 : exp ops ⟨bs1, []⟩ e2 with
          | none => simp
          | some r2 =>
            obtain ⟨⟨bs2, ds2⟩, vs2⟩ := r2
            simp only [Option.map_some', prependDiags, prependDiagsC]
            cases hv2 : assert_single_value vs2 with
            | none => simp [hv2]
            | some v2 =>
              simp only [hv2]
              cases op with
              | Eq =>
                simp only []
                cases hd1 : eqDeref ops e1.loc v1 bs2 with
                | none => simp [hd1]
                | some s3 =>
                  simp only [hd1]
                  cases hd2 : eqDeref ops e1.loc v2 s3 with
                  | none => simp [hd2]
                  | some s4 => simp [hd2, List.append_assoc]
              | Neq =>
                simp only []
                cases hd1 : eqDeref ops e1.loc v1 bs2 with
                | none => simp [hd1]
                | some s3 =>
                  simp only [hd1]
                  cases hd2 : eqDeref ops e1.loc v2 s3 with
                  | none => simp [hd2]
                  | some s4 => simp [hd2, List.append_assoc]
              | Add => cases h1r : v1.is_ref <;> cases h2r : v2.is_ref <;> simp [h1r, h2r, List.append_assoc]
              | Sub => cases h1r : v1.is_ref <;> cases h2r : v2.is_ref <;> simp [h1r, h2r, List.append_assoc]
              | Mul => cases h1r : v1.is_ref <;> cases h2r : v2.is_ref <;> simp [h1r, h2r, List.append_assoc]
              | Div => cases h1r : v1.is_ref <;> cases h2r : v2.is_ref <;> simp [h1r, h2r, List.append_assoc]
              | Lt => cases h1r : v1.is_ref <;> cases h2r : v2.is_ref <;> simp [h1r, h2r, List.append_assoc]
              | Gt => cases h1r : v1.is_ref <;> cases h2r : v2.is_ref <;> simp [h1r, h2r, List.append_assoc]
              | And => cases h1r : v1.is_ref <;> cases h2r : v2.is_ref <;> simp [h1r, h2r, List.append_assoc]
              | Or => cases h1r : v1.is_ref <;> cases h2r : v2.is_ref <;> simp [h1r, h2r, List.append_assoc]
    | Pack fields =>
      rw [exp, exp, packFields_diag_shift ops fields s d]
      cases hre : packFields ops ⟨s, []⟩ fields with
      | none => simp
      | some c1 => simp [prependDiags, prependDiagsC]
    | ExpList items =>
      rw [exp, exp]
      exact expListItems_diag_shift ops items s d
    | Unreachable => rw [exp, exp]; simp
termination_by sizeOf e

theorem packFields_diag_shift (ops : StateOps σ δ) (fields : List (Field × Exp))
    (s : σ) (d : List δ) :
    packFields ops ⟨s, d⟩ fields =
      (packFields ops ⟨s, []⟩ fields).map (prependDiagsC d) := by
  cases fields with
  | nil => rw [packFields, packFields]; simp [prependDiagsC]
  | cons hd rest =>
    obtain ⟨f, e1⟩ := hd
    rw [packFields, packFields, exp_diag_shift ops e1 s d]
    cases hre : exp ops ⟨s, []⟩ e1 with
    | none => simp
    | some r =>
      obtain ⟨⟨bs1, ds1⟩, vs⟩ := r
      simp only [Option.map_some', prependDiags, prependDiagsC]
      cases hv : assert_single_value vs with
      | none => simp [hv]
      | some v =>
        cases hvr : v.is_ref with
        | true => simp [hv, hvr]
        | false =>
          simp only [hv, hvr, Bool.false_eq_true, if_false]
          rw [packFields_diag_shift ops rest bs1 (d ++ ds1),
            packFields_diag_shift ops rest bs1 ds1]
          cases hrp : packFields ops ⟨bs1, []⟩ rest with
          | none => simp
          | some c2 => simp [prependDiagsC, List.append_assoc]
termination_by sizeOf fields

theorem expListItems_diag_shift (ops : StateOps σ δ) (items : List ExpListItem)
    (s : σ) (d : List δ) :
    expListItems ops ⟨s, d⟩ items =
      (expListItems ops ⟨s, []⟩ items).map (prependDiags d) := by
  cases items with
  | nil => rw [expListItems, expListItems]; simp [prependDiags, prependDiagsC]
  | cons item rest =>
    rw [expListItems, expListItems, exp_list_item_diag_shift ops item s d]
    cases hri : exp_list_item ops ⟨s, []⟩ item with
    | none => simp
    | some r =>
      obtain ⟨⟨bs1, ds1⟩, vs⟩ := r
      simp only [Option.map_some', prependDiags, prependDiagsC]
      rw [expListItems_diag_shift ops rest bs1 (d ++ ds1),
        expListItems_diag_shift ops rest bs1 ds1]
      cases hrr : expListItems ops ⟨bs1, []⟩ rest with
      | none => simp
      | some r2 =>
        obtain ⟨⟨bs2, ds2⟩, vs2⟩ := r2
        simp [prependDiags, prependDiagsC, List.append_assoc]
termination_by sizeOf items

theorem exp_list_item_diag_shift (ops : StateOps σ δ) (item : ExpListItem)
    (s : σ) (d : List δ) :
    exp_list_item ops ⟨s, d⟩ item =
      (exp_list_item ops ⟨s, []⟩ item).map (prependDiags d) := by
  cases item with
  | Single e1 => rw [exp_list_item, exp_list_item]; exact exp_diag_shift ops e1 s d
  | Splat e1 => rw [exp_list_item, exp_list_item]; exact exp_diag_shift ops e1 s d
termination_by sizeOf item

end

mutual

theorem lvalue_diag_shift (ops : StateOps σ δ) (l : LValue) (value : Value)
    (s : σ) (d : List δ) :
    lvalue ops ⟨s, d⟩ l value = (lvalue ops ⟨s, []⟩ l value).map (prependDiagsC d) := by
  cases l with
  | Ignore loc => rw [lvalue, lvalue]; simp
  | Var loc v => rw [lvalue, lvalue]; simp
  | Unpack loc fields =>
    rw [lvalue, lvalue]
    cases hvr : value.is_ref with
    | true => simp [hvr]
    | false =>
      simp only [hvr, Bool.false_eq_true, if_false]
      exact unpackFields_diag_shift ops fields s d
termination_by sizeOf l

theorem unpackFields_diag_shift (ops : StateOps σ δ)
    (fields : List (Field × LValue)) (s : σ) (d : List δ) :
    unpackFields ops ⟨s, d⟩ fields =
      (unpackFields ops ⟨s, []⟩ fields).map (prependDiagsC d) := by
  cases fields with
  | nil => rw [unpackFields, unpackFields]; simp
  | cons hd rest =>
    obtain ⟨f, l⟩ := hd
    rw [unpackFields, unpackFields, lvalue_diag_shift ops l .NonRef s d]
    cases hr : lvalue ops ⟨s, []⟩ l .NonRef with
    | none => simp
    | some c1 =>
      obtain ⟨bs1, ds1⟩ := c1
      simp only [Option.map_some', prependDiagsC]
      rw [unpackFields_diag_shift ops rest bs1 (d ++ ds1),
        unpackFields_diag_shift ops rest bs1 ds1]
      cases hr2 : unpackFields ops ⟨bs1, []⟩ rest with
      | none => simp
      | some c2 => simp [List.append_assoc]
termination_by sizeOf fields

end

theorem lvaluesZipped_diag_shift (ops : StateOps σ δ) :
    ∀ (pairs : List (LValue × Value)) (s : σ) (d : List δ),
    lvaluesZipped ops ⟨s, d⟩ pairs =
      (lvaluesZipped ops ⟨s, []⟩ pairs).map (prependDiagsC d) := by
  intro pairs
  induction pairs with
  | nil => intro s d; rw [lvaluesZipped, lvaluesZipped]; simp
  | cons hd rest ih =>
    intro s d
    obtain ⟨l, v⟩ := hd
    rw [lvaluesZipped, lvaluesZipped, lvalue_diag_shift ops l v s d]
    cases hr : lvalue ops ⟨s, []⟩ l v with
    | none => simp
    | some c1 =>
      obtain ⟨bs1, ds1⟩ := c1
      simp only [Option.map_some', prependDiagsC]
      rw [ih bs1 (d ++ ds1), ih bs1 ds1]
      cases hr2 : lvaluesZipped ops ⟨bs1, []⟩ rest with
      | none => simp
      | some c2 => simp [List.append_assoc]

theorem lvalues_diag_shift (ops : StateOps σ δ) (ls : List LValue)
    (values : Values) (s : σ) (d : List δ) :
    lvalues ops ⟨s, d⟩ ls values =
      (lvalues ops ⟨s, []⟩ ls values).map (prependDiagsC d) := by
  rw [lvalues, lvalues]
  exact lvaluesZipped_diag_shift ops (ls.zip values) s d

theorem command_diag_shift (ops : StateOps σ δ) (c : Command) (s : σ)
    (d : List δ) :
    command ops ⟨s, d⟩ c = (command ops ⟨s, []⟩ c).map (prependDiagsC d) := by
  obtain ⟨cloc, cmd⟩ := c
  cases cmd with
  | Assign ls e =>
    rw [command, command]
    simp only []
    rw [exp_diag_shift ops e s d]
    cases hre : exp ops ⟨s, []⟩ e with
    | none => simp
    | some r =>
      obtain ⟨⟨bs1, ds1⟩, vs⟩ := r
      simp only [Option.map_some', prependDiags, prependDiagsC]
      rw [lvalues_diag_shift ops ls vs bs1 (d ++ ds1),
        lvalues_diag_shift ops ls vs bs1 ds1]
      cases hr2 : lvalues ops ⟨bs1, []⟩ ls vs with
      | none => simp
      | some c2 => simp [List.append_assoc]
  | Mutate el er =>
    rw [command, command]
    simp only []
    rw [exp_diag_shift ops er s d]
    cases hre : exp ops ⟨s, []⟩ er with
    | none => simp
    | some r =>
      obtain ⟨⟨bs1, ds1⟩, vs⟩ := r
      simp only [Option.map_some', prependDiags, prependDiagsC]
      cases hv : assert_single_value vs with
      | none => simp [hv]
      | some v =>
        cases hvr : v.is_ref with
        | true => simp [hv, hvr]
        | false =>
          simp only [hv, hvr, Bool.false_eq_true, if_false]
          rw [exp_diag_shift ops el bs1 (d ++ ds1), exp_diag_shift ops el bs1 ds1]
          cases hre2 : exp ops ⟨bs1, []⟩ el with
          | none => simp
          | some r2 =>
            obtain ⟨⟨bs2, ds2⟩, vs2⟩ := r2
            simp only [Option.map_some', prependDiags, prependDiagsC]
            cases hv2 : assert_single_value vs2 with
            | none => simp [hv2]
            | some v2 => simp [hv2, List.append_assoc]
  | JumpIf e =>
    rw [command, command]
    simp only []
    rw [exp_diag_shift ops e s d]
    cases hre : exp ops ⟨s, []⟩ e with
    | none => simp
    | some r =>
      obtain ⟨⟨bs1, ds1⟩, vs⟩ := r
      simp only [Option.map_some', prependDiags, prependDiagsC]
      cases hv : assert_single_value vs with
      | none => simp [hv]
      | some v => cases hvr : v.is_ref <;> simp [hv, hvr]
  | IgnoreAndPop e =>
    rw [command, command]
    simp only []
    rw [exp_diag_shift ops e s d]
    cases hre : exp ops ⟨s, []⟩ e with
    | none => simp
    | some r =>
      obtain ⟨⟨bs1, ds1⟩, vs⟩ := r
      simp [List.append_assoc]
  | Return e =>
    rw [command, command]
    simp only []
    rw [exp_diag_shift ops e s d]
    cases hre : exp ops ⟨s, []⟩ e with
    | none => simp
    | some r =>
      obtain ⟨⟨bs1, ds1⟩, vs⟩ := r
      simp [List.append_assoc]
  | Abort e =>
    rw [command, command]
    simp only []
    rw [exp_diag_shift ops e s d]
    cases hre : exp ops ⟨s, []⟩ e with
    | none => simp
    | some r =>
      obtain ⟨⟨bs1, ds1⟩, vs⟩ := r
      simp only [Option.map_some', prependDiags, prependDiagsC]
      cases hv : assert_single_value vs with
      | none => simp [hv]
      | some v => cases hvr : v.is_ref <;> simp [hv, hvr, List.append_assoc]
  | Jump => rw [command, command]; simp
  | Break => rw [command, command]; simp
  | Continue => rw [command, command]; simp


mutual

theorem expArity_aux (ops : StateOps σ δ)
    (hcall : ∀ (st : σ) (l : Loc) (vs : Values) (acq : List (StructName × Loc))
      (ty : Type_), ((ops.call st l vs acq ty).2.2).length = ty.typesOf.length)
    (context : Context σ δ) (e : Exp) (r : Context σ δ × Values)
    (h : exp ops context e = some r) : r.2.length = expArity e := by
  cases e with
  | mk ty eloc ue =>
    cases ue with
    | Move var ann =>
      rw [exp] at h
      obtain ⟨rc, rvs⟩ := r
      simp at h
      simp [expArity, ← h.2]
    | Copy var =>
      rw [exp] at h
      obtain ⟨rc, rvs⟩ := r
      simp at h
      simp [expArity, ← h.2]
    | BorrowLocal mut_ var =>
      rw [exp] at h
      obtain ⟨rc, rvs⟩ := r
      split at h
      · simp at h; simp [expArity, ← h.2]
      · exact absurd h (by simp)
    | Freeze e1 =>
      rw [exp] at h
      cases hre : exp ops context e1 with
      | none => simp only [hre] at h; exact absurd h (by simp)
      | some r1 =>
        obtain ⟨c1, vs1⟩ := r1
        simp only [hre] at h
        cases hv : assert_single_value vs1 with
        | none => simp only [hv] at h; exact absurd h (by simp)
        | some v =>
          simp only [hv] at h
          obtain ⟨rc, rvs⟩ := r
          simp at h
          simp [expArity, ← h.2]
    | Dereference e1 =>
      rw [exp] at h
      cases hre : exp ops context e1 with
      | none => simp only [hre] at h; exact absurd h (by simp)
      | some r1 =>
        obtain ⟨c1, vs1⟩ := r1
        simp only [hre] at h
        cases hv : assert_single_value vs1 with
        | none => simp only [hv] at h; exact absurd h (by simp)
        | some v =>
          simp only [hv] at h
          obtain ⟨rc, rvs⟩ := r
          simp at h
          simp [expArity, ← h.2]
    | Borrow mut_ e1 f =>
      rw [exp] at h
      cases hre : exp ops context e1 with
      | none => simp only [hre] at h; exact absurd h (by simp)
      | some r1 =>
        obtain ⟨c1, vs1⟩ := r1
        simp only [hre] at h
        cases hv : assert_single_value vs1 with
        | none => simp only [hv] at h; exact absurd h (by simp)
        | some v =>
          simp only [hv] at h
          obtain ⟨rc, rvs⟩ := r
          simp at h
          simp [expArity, ← h.2]
    | Builtin b e1 =>
      rw [exp] at h
      cases hre : exp ops context e1 with
      | none => simp only [hre] at h; exact absurd h (by simp)
      | some r1 =>
        obtain ⟨c1, vs1⟩ := r1
        simp only [hre] at h
        cases b with
        | BorrowGlobal mut_ t =>
          cases hv : assert_single_value vs1 with
          | none => simp only [hv] at h; exact absurd h (by simp)
          | some v =>
            simp only [hv] at h
            cases hvr : v.is_ref with
            | true => simp [hvr] at h
            | false =>
              simp only [hvr, Bool.false_eq_true, if_false] at h
              obtain ⟨rc, rvs⟩ := r
              simp at h
              simp [expArity, ← h.2]
        | MoveFrom t =>
          cases hv : assert_single_value vs1 with
          | none => simp only [hv] at h; exact absurd h (by simp)
          | some v =>
            simp only [hv] at h
            cases hvr : v.is_ref with
            | true => simp [hvr] at h
            | false =>
              simp only [hvr, Bool.false_eq_true, if_false] at h
              cases hmf : (ops.move_from c1.borrow_state eloc t).2.2.is_ref with
              | true => simp [hmf] at h
              | false =>
                simp only [hmf, Bool.false_eq_true, if_false] at h
                obtain ⟨rc, rvs⟩ := r
                simp at h
                simp [expArity, ← h.2]
        | OtherBuiltin =>
          simp only [] at h
          obtain ⟨rc, rvs⟩ := r
          simp at h
          simp [expArity, ← h.2, hcall]
    | Vector n e1 =>
      rw [exp] at h
      cases hre : exp ops context e1 with
      | none => simp only [hre] at h; exact absurd h (by simp)
      | some r1 =>
        obtain ⟨c1, vs1⟩ := r1
        simp only [hre] at h
        obtain ⟨rc, rvs⟩ := r
        by_cases hn : n = vs1.length
        · simp only [hn, if_true] at h
          by_cases ha : vs1.all (fun v => !v.is_ref) = true
          · simp [ha] at h
            simp [expArity, ← h.2]
          · simp [ha] at h
        · simp [hn] at h
    | ModuleCall acq args =>
      rw [exp] at h
      cases hre : exp ops context args with
      | none => simp only [hre] at h; exact absurd h (by simp)
      | some r1 =>
        obtain ⟨c1, vs1⟩ := r1
        simp only [hre] at h
        obtain ⟨rc, rvs⟩ := r
        simp at h
        simp [expArity, ← h.2, hcall]
    | Unit =>
      rw [exp] at h
      obtain ⟨rc, rvs⟩ := r
      simp at h
      simp [expArity, ← h.2]
    | Value =>
      rw [exp] at h
      obtain ⟨rc, rvs⟩ := r
      simp at h
      simp [expArity, ← h.2]
    | Constant =>
      rw [exp] at h
      obtain ⟨rc, rvs⟩ := r
      simp at h
      simp [expArity, ← h.2]
    | Spec =>
      rw [exp] at h
      obtain ⟨rc, rvs⟩ := r
      simp at h
      simp [expArity, ← h.2]
    | UnresolvedError =>
      rw [exp] at h
      obtain ⟨rc, rvs⟩ := r
      simp at h
      simp [expArity, ← h.2]
    | Cast e1 =>
      rw [exp] at h
      cases hre : exp ops context e1 with
      | none => simp only [hre] at h; exact absurd h (by simp)
      | some r1 =>
        obtain ⟨c1, vs1⟩ := r1
        simp only [hre] at h
        cases hv : assert_single_value vs1 with
        | none => simp only [hv] at h; exact absurd h (by simp)
        | some v =>
          simp only [hv] at h
          cases hvr : v.is_ref with
          | true => simp [hvr] at h
          | false =>
            simp only [hvr, Bool.false_eq_true, if_false] at h
            obtain ⟨rc, rvs⟩ := r
            simp at h
            simp [expArity, ← h.2]
    | UnaryExp e1 =>
      rw [exp] at h
      cases hre : exp ops context e1 with
      | none => simp only [hre] at h; exact absurd h (by simp)
      | some r1 =>
        obtain ⟨c1, vs1⟩ := r1
        simp only [hre] at h
        cases hv : assert_single_value vs1 with
        | none => simp only [hv] at h; exact absurd h (by simp)
        | some v =>
          simp only [hv] at h
          cases hvr : v.is_ref with
          | true => simp [hvr] at h
          | false =>
            simp only [hvr, Bool.false_eq_true, if_false] at h
            obtain ⟨rc, rvs⟩ := r
            simp at h
            simp [expArity, ← h.2]
    | BinopExp e1 op e2 =>
      rw [exp] at h
      cases hre1 : exp ops context e1 with
      | none => simp only [hre1] at h; exact absurd h (by simp)
      | some r1 =>
        obtain ⟨c1, vs1⟩ := r1
        simp only [hre1] at h
        cases hv1 : assert_single_value vs1 with
        | none => simp only [hv1] at h; exact absurd h (by simp)
        | some v1 =>
          simp only [hv1] at h
          cases hre2 : exp ops c1 e2 with
          | none => simp only [hre2] at h; exact absurd h (by simp)
          | some r2 =>
            obtain ⟨c2, vs2⟩ := r2
            simp only [hre2] at h
            cases hv2 : assert_single_value vs2 with
            | none => simp only [hv2] at h; exact absurd h (by simp)
            | some v2 =>
              simp only [hv2] at h
              obtain ⟨rc, rvs⟩ := r
              cases op with
              | Eq =>
                simp only [] at h
                cases hd1 : eqDeref ops e1.loc v1 c2.borrow_state with
                | none => simp only [hd1] at h; exact absurd h (by simp)
                | some s3 =>
                  simp only [hd1] at h
                  cases hd2 : eqDeref ops e1.loc v2 s3 with
                  | none => simp only [hd2] at h; exact absurd h (by simp)
                  | some s4 =>
                    simp only [hd2] at h
                    simp at h
                    simp [expArity, ← h.2]
              | Neq =>
                simp only [] at h
                cases hd1 : eqDeref ops e1.loc v1 c2.borrow_state with
                | none => simp only [hd1] at h; exact absurd h (by simp)
                | some s3 =>
                  simp only [hd1] at h
                  cases hd2 : eqDeref ops e1.loc v2 s3 with
                  | none => simp only [hd2] at h; exact absurd h (by simp)
                  | some s4 =>
                    simp only [hd2] at h
                    simp at h
                    simp [expArity, ← h.2]
              | Add =>
                cases h1r : v1.is_ref <;> cases h2r : v2.is_ref <;>
                  simp [h1r, h2r] at h <;> simp [expArity, ← h.2]
              | Sub =>
                cases h1r : v1.is_ref <;> cases h2r : v2.is_ref <;>
                  simp [h1r, h2r] at h <;> simp [expArity, ← h.2]
              | Mul =>
                cases h1r : v1.is_ref <;> cases h2r : v2.is_ref <;>
                  simp [h1r, h2r] at h <;> simp [expArity, ← h.2]
              | Div =>
                cases h1r : v1.is_ref <;> cases h2r : v2.is_ref <;>
                  simp [h1r, h2r] at h <;> simp [expArity, ← h.2]
              | Lt =>
                cases h1r : v1.is_ref <;> cases h2r : v2.is_ref <;>
                  simp [h1r, h2r] at h <;> simp [expArity, ← h.2]
              | Gt =>
                cases h1r : v1.is_ref <;> cases h2r : v2.is_ref <;>
                  simp [h1r, h2r] at h <;> simp [expArity, ← h.2]
              | And =>
                cases h1r : v1.is_ref <;> cases h2r : v2.is_ref <;>
                  simp [h1r, h2r] at h <;> simp [expArity, ← h.2]
              | Or =>
                cases h1r : v1.is_ref <;> cases h2r : v2.is_ref <;>
                  simp [h1r, h2r] at h <;> simp [expArity, ← h.2]
    | Pack fields =>
      rw [exp] at h
      cases hre : packFields ops context fields with
      | none => simp only [hre] at h; exact absurd h (by simp)
      | some c1 =>
        simp only [hre] at h
        obtain ⟨rc, rvs⟩ := r
        simp at h
        simp [expArity, ← h.2]
    | ExpList items =>
      rw [exp] at h
      rw [expArity]
      exact itemsArity_aux ops hcall context items r h
    | Unreachable => rw [exp] at h; exact absurd h (by simp)
termination_by sizeOf e

theorem itemsArity_aux (ops : StateOps σ δ)
    (hcall : ∀ (st : σ) (l : Loc) (vs : Values) (acq : List (StructName × Loc))
      (ty : Type_), ((ops.call st l vs acq ty).2.2).length = ty.typesOf.length)
    (context : Context σ δ) (items : List ExpListItem)
    (r : Context σ δ × Values)
    (h : expListItems ops context items = some r) :
    r.2.length = itemsArity items := by
  cases items with
  | nil =>
    rw [expListItems] at h
    obtain ⟨rc, rvs⟩ := r
    simp at h
    simp [itemsArity, ← h.2]
  | cons item rest =>
    rw [expListItems] at h
    cases hri : exp_list_item ops context item with
    | none => simp only [hri] at h; exact absurd h (by simp)
    | some r1 =>
      obtain ⟨c1, vs1⟩ := r1
      simp only [hri] at h
      cases hrr : expListItems ops c1 rest with
      | none => simp only [hrr] at h; exact absurd h (by simp)
      | some r2 =>
        obtain ⟨c2, vs2⟩ := r2
        simp only [hrr] at h
        obtain ⟨rc, rvs⟩ := r
        simp at h
        have hi := itemArity_aux ops hcall context item (c1, vs1) hri
        have hr2 := itemsArity_aux ops hcall c1 rest (c2, vs2) hrr
        simp at hi hr2
        simp [itemsArity, ← h.2, hi, hr2]
termination_by sizeOf items

theorem itemArity_aux (ops : StateOps σ δ)
    (hcall : ∀ (st : σ) (l : Loc) (vs : Values) (acq : List (StructName × Loc))
      (ty : Type_), ((ops.call st l vs acq ty).2.2).length = ty.typesOf.length)
    (context : Context σ δ) (item : ExpListItem) (r : Context σ δ × Values)
    (h : exp_list_item ops context item = some r) :
    r.2.length = itemArity item := by
  cases item with
  | Single e1 =>
    rw [exp_list_item] at h
    rw [itemArity]
    exact expArity_aux ops hcall context e1 r h
  | Splat e1 =>
    rw [exp_list_item] at h
    rw [itemArity]
    exact expArity_aux ops hcall context e1 r h
termination_by sizeOf item

end


theorem lookup_set (l : List (Var × LocalStatus)) (x : Var) (st : LocalStatus)
    (y : Var) :
    lookupStatus (setStatusList l x st) y =
      if y = x then st else lookupStatus l y := by
  induction l with
  | nil =>
    by_cases h : y = x
    · simp [setStatusList, lookupStatus, h]
    · simp [setStatusList, lookupStatus, h]
  | cons hd tl ih =>
    obtain ⟨v, st0⟩ := hd
    by_cases hxv : x = v
    · subst hxv
      by_cases hyx : y = x
      · simp [setStatusList, lookupStatus, hyx]
      · simp [setStatusList, lookupStatus, hyx]
    · have hvx : ¬v = x := fun h => hxv h.symm
      by_cases hyv : y = v
      · simp [setStatusList, lookupStatus, hxv, hyv, hvx]
      · simp [setStatusList, lookupStatus, hxv, hyv, ih]

theorem status_setStatus (s : MState) (x : Var) (st : LocalStatus) (y : Var) :
    (s.setStatus x st).status y = if y = x then st else s.status y := by
  rw [MState.setStatus, MState.status, MState.status]
  exact lookup_set s.locals x st y

theorem StateOK_locals_eq (Γ : TypeEnv) (s1 s2 : MState)
    (h : s1.locals = s2.locals) : StateOK Γ s1 = StateOK Γ s2 := by
  simp [StateOK, baseOk, MState.status, h]

theorem StateOK_status (Γ : TypeEnv) (s : MState) (x : Var) (τ : SingleType)
    (hok : StateOK Γ s = true) (hl : lookupTy Γ x = some τ)
    (hb : τ.isBase = true) (v : Value) (hv : s.status x = .Assigned v) :
    v.is_ref = false := by
  have hmem : ∃ p, p ∈ Γ ∧ p.1 = x := by
    rw [lookupTy] at hl
    cases hf : Γ.find? (fun p => p.1 = x) with
    | none => rw [hf] at hl; simp at hl
    | some p =>
      refine ⟨p, List.mem_of_find?_eq_some hf, ?_⟩
      have := List.find?_some hf
      simpa using this
  obtain ⟨p, hpmem, hpx⟩ := hmem
  rw [StateOK, List.all_eq_true] at hok
  have hbase := hok p hpmem
  rw [baseOk, hpx, hl] at hbase
  simp only [hb, if_true] at hbase
  rw [hv] at hbase
  simpa using hbase

theorem StateOK_set (Γ : TypeEnv) (s : MState) (x : Var) (st : LocalStatus)
    (hok : StateOK Γ s = true)
    (hst : ∀ τ, lookupTy Γ x = some τ → τ.isBase = true →
      ∀ v, st = .Assigned v → v.is_ref = false) :
    StateOK Γ (s.setStatus x st) = true := by
  rw [StateOK, List.all_eq_true]
  intro p hpmem
  rw [StateOK, List.all_eq_true] at hok
  have hbase := hok p hpmem
  rw [baseOk] at hbase ⊢
  cases hl : lookupTy Γ p.1 with
  | none => simp
  | some τ =>
    rw [hl] at hbase
    by_cases hb : τ.isBase = true
    · simp only [hb, if_true] at hbase ⊢
      rw [status_setStatus]
      by_cases hpx : p.1 = x
      · simp only [hpx, if_true]
        cases st with
        | Unassigned => simp
        | Assigned v =>
          have := hst τ (hpx ▸ hl) hb v rfl
          simp [this]
      · simp only [hpx, if_false]
        exact hbase
    · simp [hb]

theorem ok_move_local (Γ : TypeEnv) (s : MState) (loc : Loc) (x : Var)
    (b : Bool) (hok : StateOK Γ s = true) :
    StateOK Γ (s.move_local loc x b).1 = true := by
  rw [MState.move_local]
  cases hs : s.status x with
  | Unassigned => simpa using hok
  | Assigned v =>
    simp only []
    exact StateOK_set Γ s x .Unassigned hok (by intro τ h1 h2 v hv; cases hv)

theorem move_local_val (Γ : TypeEnv) (s : MState) (loc : Loc) (x : Var)
    (b : Bool) (τ : SingleType) (hok : StateOK Γ s = true)
    (hl : lookupTy Γ x = some τ) (hb : τ.isBase = true) :
    ((s.move_local loc x b).2.2).is_ref = false := by
  rw [MState.move_local]
  cases hs : s.status x with
  | Unassigned => simp [Value.is_ref]
  | Assigned v =>
    simp only []
    exact StateOK_status Γ s x τ hok hl hb v hs

theorem ok_copy_local (Γ : TypeEnv) (s : MState) (loc : Loc) (x : Var)
    (hok : StateOK Γ s = true) :
    StateOK Γ (s.copy_local loc x).1 = true := by
  rw [MState.copy_local]
  cases hs : s.status x with
  | Unassigned => simpa using hok
  | Assigned v =>
    cases v with
    | NonRef => simpa using hok
    | Ref id =>
      simp only []
      exact (StateOK_locals_eq Γ _ s rfl).trans hok

theorem copy_local_val (Γ : TypeEnv) (s : MState) (loc : Loc) (x : Var)
    (τ : SingleType) (hok : StateOK Γ s = true)
    (hl : lookupTy Γ x = some τ) (hb : τ.isBase = true) :
    ((s.copy_local loc x).2.2).is_ref = false := by
  rw [MState.copy_local]
  cases hs : s.status x with
  | Unassigned => simp [Value.is_ref]
  | Assigned v =>
    cases v with
    | NonRef => simp [Value.is_ref]
    | Ref id =>
      have := StateOK_status Γ s x τ hok hl hb (.Ref id) hs
      simp [Value.is_ref] at this

theorem ok_assign_local (Γ : TypeEnv) (s : MState) (loc : Loc) (x : Var)
    (value : Value) (hok : StateOK Γ s = true)
    (hcond : ∀ τv, lookupTy Γ x = some τv → τv.isBase = true →
      value.is_ref = false) :
    StateOK Γ (s.assign_local loc x value).1 = true := by
  rw [MState.assign_local]
  simp only []
  have hok2 : StateOK Γ (match s.status x with
      | .Assigned (.Ref old) => s.dropNode old
      | _ => s) = true := by
    cases hs : s.status x with
    | Unassigned => exact hok
    | Assigned v =>
      cases v with
      | NonRef => exact hok
      | Ref old => exact (StateOK_locals_eq Γ _ s rfl).trans hok
  exact StateOK_set Γ _ x (.Assigned value) hok2
    (by intro τ h1 h2 v hv; cases hv; exact hcond τ h1 h2)

theorem ok_release_values (Γ : TypeEnv) (s : MState) (vs : Values)
    (hok : StateOK Γ s = true) :
    StateOK Γ (s.release_values vs) = true := by
  induction vs generalizing s with
  | nil => simpa [MState.release_values] using hok
  | cons v rest ih =>
    rw [MState.release_values] at *
    simp only [List.foldl_cons]
    apply ih
    cases v with
    | NonRef => simpa [MState.release_value] using hok
    | Ref id =>
      rw [MState.release_value]
      exact (StateOK_locals_eq Γ _ s rfl).trans hok

theorem kindsOk_length : ∀ (ts : List SingleType) (vs : Values),
    kindsOk ts vs = true → vs.length = ts.length := by
  intro ts
  induction ts with
  | nil => intro vs h; cases vs with
    | nil => rfl
    | cons v rest => simp [kindsOk] at h
  | cons τ ts ih =>
    intro vs h
    cases vs with
    | nil => simp [kindsOk] at h
    | cons v rest =>
      rw [kindsOk] at h
      simp only [Bool.and_eq_true] at h
      simp [ih rest h.2]

theorem kindsOk_append : ∀ (ts1 : List SingleType) (vs1 : Values)
    (ts2 : List SingleType) (vs2 : Values),
    kindsOk ts1 vs1 = true → kindsOk ts2 vs2 = true →
    kindsOk (ts1 ++ ts2) (vs1 ++ vs2) = true := by
  intro ts1
  induction ts1 with
  | nil => intro vs1 ts2 vs2 h1 h2; cases vs1 with
    | nil => simpa using h2
    | cons v rest => simp [kindsOk] at h1
  | cons τ ts ih =>
    intro vs1 ts2 vs2 h1 h2
    cases vs1 with
    | nil => simp [kindsOk] at h1
    | cons v rest =>
      rw [kindsOk] at h1
      simp only [Bool.and_eq_true] at h1
      simp only [List.cons_append, kindsOk, Bool.and_eq_true]
      exact ⟨h1.1, ih rest ts2 vs2 h1.2 h2⟩

theorem kindsOk_all_base : ∀ (ts : List SingleType) (vs : Values),
    kindsOk ts vs = true → ts.all SingleType.isBase = true →
    vs.all (fun v => !v.is_ref) = true := by
  intro ts
  induction ts with
  | nil => intro vs h hb; cases vs with
    | nil => rfl
    | cons v rest => simp [kindsOk] at h
  | cons τ ts ih =>
    intro vs h hb
    cases vs with
    | nil => simp [kindsOk] at h
    | cons v rest =>
      rw [kindsOk] at h
      simp only [Bool.and_eq_true] at h
      simp only [List.all_cons, Bool.and_eq_true] at hb ⊢
      refine ⟨?_, ih rest h.2 hb.2⟩
      rw [kindOk] at h
      have h1 := h.1
      rw [hb.1] at h1
      simpa using h1

theorem kindsOk_one (τ : SingleType) (vs : Values)
    (h : kindsOk [τ] vs = true) : ∃ v, vs = [v] ∧ kindOk τ v = true := by
  cases vs with
  | nil => simp [kindsOk] at h
  | cons v rest =>
    cases rest with
    | nil =>
      rw [kindsOk] at h
      simp only [Bool.and_eq_true] at h
      exact ⟨v, rfl, h.1⟩
    | cons v2 rest2 =>
      rw [kindsOk] at h
      simp only [Bool.and_eq_true] at h
      simp [kindsOk] at h

theorem kindOk_base (τ : SingleType) (v : Value) (h : kindOk τ v = true)
    (hb : τ.isBase = true) : v.is_ref = false := by
  rw [kindOk, hb] at h
  simpa using h

theorem kindOk_nonref (τ : SingleType) : kindOk τ Value.NonRef = true := by
  rw [kindOk]
  simp [Value.is_ref]

theorem kindOk_ref_ty (τ : SingleType) (v : Value) (h : τ.isBase = false) :
    kindOk τ v = true := by
  rw [kindOk, h]
  simp

theorem tyIsSingle_types (ty : Type_) (h : tyIsSingle ty = true) :
    ∃ τ, ty.typesOf = [τ] := by
  rw [tyIsSingle] at h
  cases hts : ty.typesOf with
  | nil => rw [hts] at h; simp at h
  | cons τ rest =>
    cases rest with
    | nil => exact ⟨τ, rfl⟩
    | cons τ2 rest2 => rw [hts] at h; simp at h

theorem tyIsSingleBase_types (ty : Type_) (h : tyIsSingleBase ty = true) :
    ∃ τ, ty.typesOf = [τ] ∧ τ.isBase = true := by
  rw [tyIsSingleBase] at h
  cases hts : ty.typesOf with
  | nil => rw [hts] at h; simp at h
  | cons τ rest =>
    cases rest with
    | nil => rw [hts] at h; exact ⟨τ, rfl, h⟩
    | cons τ2 rest2 => rw [hts] at h; simp at h

theorem tyIsSingleRef_types (ty : Type_) (h : tyIsSingleRef ty = true) :
    ∃ τ, ty.typesOf = [τ] ∧ τ.isBase = false := by
  rw [tyIsSingleRef] at h
  cases hts : ty.typesOf with
  | nil => rw [hts] at h; simp at h
  | cons τ rest =>
    cases rest with
    | nil => rw [hts] at h; simp at h; exact ⟨τ, rfl, by simpa using h⟩
    | cons τ2 rest2 => rw [hts] at h; simp at h

theorem kindsOk_buildVals : ∀ (ts : List SingleType) (n : Nat),
    kindsOk ts (buildVals n ts) = true := by
  intro ts
  induction ts with
  | nil => intro n; rfl
  | cons τ ts ih =>
    intro n
    cases τ with
    | Base b =>
      rw [buildVals, kindsOk]
      simp only [Bool.and_eq_true]
      exact ⟨kindOk_nonref _, ih (n + 1)⟩
    | Ref m b =>
      rw [buildVals, kindsOk]
      simp only [Bool.and_eq_true]
      exact ⟨kindOk_ref_ty _ _ rfl, ih (n + 1)⟩

theorem length_buildVals : ∀ (ts : List SingleType) (n : Nat),
    (buildVals n ts).length = ts.length := by
  intro ts
  induction ts with
  | nil => intro n; rfl
  | cons τ ts ih =>
    intro n
    cases τ with
    | Base b => simp [buildVals, ih]
    | Ref m b => simp [buildVals, ih]

theorem specOps_call_arity (st : MState) (l : Loc) (vs : Values)
    (acq : List (StructName × Loc)) (ty : Type_) :
    ((specOps.call st l vs acq ty).2.2).length = ty.typesOf.length := by
  rw [specOps]
  simp only [MState.call]
  exact length_buildVals ty.typesOf st.next_id

theorem call_kinds (s : MState) (loc : Loc) (args : Values)
    (acq : List (StructName × Loc)) (ty : Type_) :
    kindsOk ty.typesOf ((MState.call s loc args acq ty).2.2) = true := by
  simp only [MState.call]
  exact kindsOk_buildVals ty.typesOf s.next_id

theorem eqDeref_spec (l : Loc) (v : Value) (st : MState) :
    eqDeref specOps l v st = some st := by
  cases hv : v.is_ref <;> simp [eqDeref, hv, specOps, MState.dereference]


theorem wt_move_elim (Γ : TypeEnv) (ty : Type_) (eloc : Loc) (var : Var)
    (ann : MoveOpAnnotation)
    (h : wellTyped Γ (.mk ty eloc (.Move var ann)) = true) :
    ∃ τ, lookupTy Γ var = some τ ∧ ty.typesOf = [τ] := by
  rw [wellTyped] at h
  cases hl : lookupTy Γ var with
  | none => rw [hl] at h; simp at h
  | some τ =>
    rw [hl] at h
    cases hts : ty.typesOf with
    | nil => rw [hts] at h; simp at h
    | cons τ2 rest =>
      cases rest with
      | nil =>
        rw [hts] at h
        simp at h
        exact ⟨τ, rfl, by rw [h]⟩
      | cons τ3 rest2 => rw [hts] at h; simp at h

theorem wt_copy_elim (Γ : TypeEnv) (ty : Type_) (eloc : Loc) (var : Var)
    (h : wellTyped Γ (.mk ty eloc (.Copy var)) = true) :
    ∃ τ, lookupTy Γ var = some τ ∧ ty.typesOf = [τ] := by
  rw [wellTyped] at h
  cases hl : lookupTy Γ var with
  | none => rw [hl] at h; simp at h
  | some τ =>
    rw [hl] at h
    cases hts : ty.typesOf with
    | nil => rw [hts] at h; simp at h
    | cons τ2 rest =>
      cases rest with
      | nil =>
        rw [hts] at h
        simp at h
        exact ⟨τ, rfl, by rw [h]⟩
      | cons τ3 rest2 => rw [hts] at h; simp at h

theorem kindsOk_of_single (ty : Type_) (τ : SingleType) (v : Value)
    (hts : ty.typesOf = [τ]) (hk : kindOk τ v = true) :
    kindsOk ty.typesOf [v] = true := by
  rw [hts, kindsOk]
  simp [hk]
  rfl

theorem nonref_of_is_ref_false (v : Value) (h : v.is_ref = false) :
    v = Value.NonRef := by
  cases v with
  | NonRef => rfl
  | Ref id => simp [Value.is_ref] at h

mutual

theorem expPreserve (Γ : TypeEnv) (e : Exp) (s : MState) (d : List MDiag)
    (hok : StateOK Γ s = true) (hwt : wellTyped Γ e = true) :
    ∃ (s2 : MState) (d2 : List MDiag) (vs : Values),
      exp specOps ⟨s, d⟩ e = some (⟨s2, d2⟩, vs) ∧ StateOK Γ s2 = true ∧
      kindsOk e.ty.typesOf vs = true := by
  cases e with
  | mk ty eloc ue =>
    cases ue with
    | Move var ann =>
      obtain ⟨τ, hl, hts⟩ := wt_move_elim Γ ty eloc var ann hwt
      refine ⟨(MState.move_local s eloc var ann.isInferredLastUsage).1,
        d ++ (MState.move_local s eloc var ann.isInferredLastUsage).2.1,
        [(MState.move_local s eloc var ann.isInferredLastUsage).2.2],
        by rw [exp]; rfl,
        ok_move_local Γ s eloc var _ hok, ?_⟩
      apply kindsOk_of_single _ τ _ (by simpa [Exp.ty] using hts)
      by_cases hb : τ.isBase = true
      · have := move_local_val Γ s eloc var ann.isInferredLastUsage τ hok hl hb
        rw [kindOk, this, hb]
        rfl
      · exact kindOk_ref_ty τ _ (by simpa using hb)
    | Copy var =>
      obtain ⟨τ, hl, hts⟩ := wt_copy_elim Γ ty eloc var hwt
      refine ⟨(MState.copy_local s eloc var).1,
        d ++ (MState.copy_local s eloc var).2.1,
        [(MState.copy_local s eloc var).2.2],
        by rw [exp]; rfl,
        ok_copy_local Γ s eloc var hok, ?_⟩
      apply kindsOk_of_single _ τ _ (by simpa [Exp.ty] using hts)
      by_cases hb : τ.isBase = true
      · have := copy_local_val Γ s eloc var τ hok hl hb
        rw [kindOk, this, hb]
        rfl
      · exact kindOk_ref_ty τ _ (by simpa using hb)
    | BorrowLocal mut_ var =>
      rw [wellTyped] at hwt
      obtain ⟨τ, hts, hb⟩ := tyIsSingleRef_types ty hwt
      refine ⟨(MState.borrow_local s eloc mut_ var).1,
        d ++ (MState.borrow_local s eloc mut_ var).2.1,
        [(MState.borrow_local s eloc mut_ var).2.2], ?_, ?_, ?_⟩
      · rw [exp]
        have hr : (MState.borrow_local s eloc mut_ var).2.2.is_ref = true := by
          rw [MState.borrow_local]
          rfl
        simp only [specOps, hr, if_true]
      · rw [MState.borrow_local]
        simp only []
        exact (StateOK_locals_eq Γ _ s rfl).trans hok
      · exact kindsOk_of_single _ τ _ (by simpa [Exp.ty] using hts)
          (kindOk_ref_ty τ _ hb)
    | Freeze e1 =>
      rw [wellTyped] at hwt
      simp only [Bool.and_eq_true] at hwt
      obtain ⟨⟨hwt1, hsing⟩, href⟩ := hwt
      obtain ⟨s1, d1, vs1, he1, hok1, hk1⟩ := expPreserve Γ e1 s d hok hwt1
      obtain ⟨τ1, hts1⟩ := tyIsSingle_types e1.ty hsing
      obtain ⟨v1, hvs1, hkv1⟩ := kindsOk_one τ1 vs1 (by rw [← hts1]; exact hk1)
      obtain ⟨τ, hts, hb⟩ := tyIsSingleRef_types ty href
      subst hvs1
      refine ⟨(MState.freeze s1 eloc v1).1,
        d1 ++ (MState.freeze s1 eloc v1).2.1,
        [(MState.freeze s1 eloc v1).2.2], ?_, ?_, ?_⟩
      · rw [exp, he1]
        rfl
      · cases v1 with
        | NonRef => simpa [MState.freeze] using hok1
        | Ref id =>
          rw [MState.freeze]
          simp only []
          exact (StateOK_locals_eq Γ _ s1 rfl).trans hok1
      · exact kindsOk_of_single _ τ _ (by simpa [Exp.ty] using hts)
          (kindOk_ref_ty τ _ hb)
    | Dereference e1 =>
      rw [wellTyped] at hwt
      simp only [Bool.and_eq_true] at hwt
      obtain ⟨⟨hwt1, hsing⟩, hsingp⟩ := hwt
      obtain ⟨s1, d1, vs1, he1, hok1, hk1⟩ := expPreserve Γ e1 s d hok hwt1
      obtain ⟨τ1, hts1⟩ := tyIsSingle_types e1.ty hsing
      obtain ⟨v1, hvs1, hkv1⟩ := kindsOk_one τ1 vs1 (by rw [← hts1]; exact hk1)
      obtain ⟨τ, hts⟩ := tyIsSingle_types ty hsingp
      subst hvs1
      refine ⟨s1, d1 ++ [], [Value.NonRef], ?_, hok1, ?_⟩
      · rw [exp, he1]
        rfl
      · exact kindsOk_of_single _ τ _ (by simpa [Exp.ty] using hts)
          (kindOk_nonref τ)
    | Borrow mut_ e1 f =>
      rw [wellTyped] at hwt
      simp only [Bool.and_eq_true] at hwt
      obtain ⟨⟨hwt1, hsing⟩, href⟩ := hwt
      obtain ⟨s1, d1, vs1, he1, hok1, hk1⟩ := expPreserve Γ e1 s d hok hwt1
      obtain ⟨τ1, hts1⟩ := tyIsSingle_types e1.ty hsing
      obtain ⟨v1, hvs1, hkv1⟩ := kindsOk_one τ1 vs1 (by rw [← hts1]; exact hk1)
      obtain ⟨τ, hts, hb⟩ := tyIsSingleRef_types ty href
      subst hvs1
      refine ⟨(MState.borrow_field s1 eloc mut_ v1 f).1,
        d1 ++ (MState.borrow_field s1 eloc mut_ v1 f).2.1,
        [(MState.borrow_field s1 eloc mut_ v1 f).2.2], ?_, ?_, ?_⟩
      · rw [exp, he1]
        rfl
      · cases v1 with
        | NonRef =>
          rw [MState.borrow_field]
          simp only []
          exact (StateOK_locals_eq Γ _ s1 rfl).trans hok1
        | Ref id =>
          rw [MState.borrow_field]
          simp only []
          exact (StateOK_locals_eq Γ _ s1 rfl).trans hok1
      · have hrf : (MState.borrow_field s1 eloc mut_ v1 f).2.2.is_ref = true := by
          cases v1 <;> rw [MState.borrow_field] <;> rfl
        exact kindsOk_of_single _ τ _ (by simpa [Exp.ty] using hts)
          (kindOk_ref_ty τ _ hb)
    | Builtin b e1 =>
      cases b with
      | BorrowGlobal mut_ t =>
        rw [wellTyped] at hwt
        simp only [Bool.and_eq_true] at hwt
        obtain ⟨⟨hwt1, hbase⟩, href⟩ := hwt
        obtain ⟨s1, d1, vs1, he1, hok1, hk1⟩ := expPreserve Γ e1 s d hok hwt1
        obtain ⟨τ1, hts1, hb1⟩ := tyIsSingleBase_types e1.ty hbase
        obtain ⟨v1, hvs1, hkv1⟩ := kindsOk_one τ1 vs1 (by rw [← hts1]; exact hk1)
        have hnr : v1.is_ref = false := kindOk_base τ1 v1 hkv1 hb1
        obtain ⟨τ, hts, hb⟩ := tyIsSingleRef_types ty href
        subst hvs1
        refine ⟨(MState.borrow_global s1 eloc mut_ t).1,
          d1 ++ (MState.borrow_global s1 eloc mut_ t).2.1,
          [(MState.borrow_global s1 eloc mut_ t).2.2], ?_, ?_, ?_⟩
        · rw [exp]
          simp only [he1]
          simp [assert_single_value, hnr, specOps]
        · rw [MState.borrow_global]
          simp only []
          exact (StateOK_locals_eq Γ _ s1 rfl).trans hok1
        · exact kindsOk_of_single _ τ _ (by simpa [Exp.ty] using hts)
            (kindOk_ref_ty τ _ hb)
      | MoveFrom t =>
        rw [wellTyped] at hwt
        simp only [Bool.and_eq_true] at hwt
        obtain ⟨⟨hwt1, hbase⟩, hsing⟩ := hwt
        obtain ⟨s1, d1, vs1, he1, hok1, hk1⟩ := expPreserve Γ e1 s d hok hwt1
        obtain ⟨τ1, hts1, hb1⟩ := tyIsSingleBase_types e1.ty hbase
        obtain ⟨v1, hvs1, hkv1⟩ := kindsOk_one τ1 vs1 (by rw [← hts1]; exact hk1)
        have hnr : v1.is_ref = false := kindOk_base τ1 v1 hkv1 hb1
        obtain ⟨τ, hts⟩ := tyIsSingle_types ty hsing
        subst hvs1
        have hv1e := nonref_of_is_ref_false v1 hnr
        subst hv1e
        refine ⟨(MState.move_from s1 eloc t).1,
          d1 ++ (MState.move_from s1 eloc t).2.1,
          [(MState.move_from s1 eloc t).2.2], ?_, ?_, ?_⟩
        · rw [exp]
          simp only [he1]
          simp [assert_single_value, hnr, specOps, MState.move_from, Value.is_ref]
        · rw [MState.move_from]
          simp only []
          exact (StateOK_locals_eq Γ _ s1 rfl).trans hok1
        · refine kindsOk_of_single _ τ _ (by simpa [Exp.ty] using hts) ?_
          rw [MState.move_from]
          exact kindOk_nonref τ
      | OtherBuiltin =>
        rw [wellTyped] at hwt
        obtain ⟨s1, d1, vs1, he1, hok1, hk1⟩ := expPreserve Γ e1 s d hok hwt
        refine ⟨(MState.call s1 eloc vs1 [] ty).1,
          d1 ++ (MState.call s1 eloc vs1 [] ty).2.1,
          (MState.call s1 eloc vs1 [] ty).2.2, ?_, ?_, ?_⟩
        · rw [exp]
          simp only [he1]
          rfl
        · rw [MState.call]
          simp only []
          exact (StateOK_locals_eq Γ _ s1 rfl).trans hok1
        · simpa [Exp.ty] using call_kinds s1 eloc vs1 [] ty
    | Vector n e1 =>
      rw [wellTyped] at hwt
      simp only [Bool.and_eq_true] at hwt
      obtain ⟨⟨⟨hwt1, hn⟩, hallb⟩, hsing⟩ := hwt
      obtain ⟨s1, d1, vs1, he1, hok1, hk1⟩ := expPreserve Γ e1 s d hok hwt1
      have hlen : vs1.length = e1.ty.typesOf.length := kindsOk_length _ _ hk1
      have hneq : n = vs1.length := by
        rw [hlen]
        exact of_decide_eq_true hn
      have hall : vs1.all (fun v => !v.is_ref) = true :=
        kindsOk_all_base _ _ hk1 hallb
      obtain ⟨τ, hts⟩ := tyIsSingle_types ty hsing
      refine ⟨s1, d1, [Value.NonRef], ?_, hok1, ?_⟩
      · rw [exp]
        simp only [he1]
        simp [hneq, hall]
      · exact kindsOk_of_single _ τ _ (by simpa [Exp.ty] using hts)
          (kindOk_nonref τ)
    | ModuleCall acq args =>
      rw [wellTyped] at hwt
      obtain ⟨s1, d1, vs1, he1, hok1, hk1⟩ := expPreserve Γ args s d hok hwt
      refine ⟨(MState.call s1 eloc vs1 acq ty).1,
        d1 ++ (MState.call s1 eloc vs1 acq ty).2.1,
        (MState.call s1 eloc vs1 acq ty).2.2, ?_, ?_, ?_⟩
      · rw [exp]
        simp only [he1]
        rfl
      · rw [MState.call]
        simp only []
        exact (StateOK_locals_eq Γ _ s1 rfl).trans hok1
      · simpa [Exp.ty] using call_kinds s1 eloc vs1 acq ty
    | Unit =>
      rw [wellTyped] at hwt
      have hts : ty.typesOf = [] := List.length_eq_zero.mp (of_decide_eq_true hwt)
      refine ⟨s, d, [], by rw [exp], hok, ?_⟩
      simp only [Exp.ty, hts]
      rfl
    | Value =>
      rw [wellTyped] at hwt
      obtain ⟨τ, hts⟩ := tyIsSingle_types ty hwt
      refine ⟨s, d, [Value.NonRef], by rw [exp], hok, ?_⟩
      exact kindsOk_of_single _ τ _ (by simpa [Exp.ty] using hts)
        (kindOk_nonref τ)
    | Constant =>
      rw [wellTyped] at hwt
      obtain ⟨τ, hts⟩ := tyIsSingle_types ty hwt
      refine ⟨s, d, [Value.NonRef], by rw [exp], hok, ?_⟩
      exact kindsOk_of_single _ τ _ (by simpa [Exp.ty] using hts)
        (kindOk_nonref τ)
    | Spec =>
      rw [wellTyped] at hwt
      obtain ⟨τ, hts⟩ := tyIsSingle_types ty hwt
      refine ⟨s, d, [Value.NonRef], by rw [exp], hok, ?_⟩
      exact kindsOk_of_single _ τ _ (by simpa [Exp.ty] using hts)
        (kindOk_nonref τ)
    | UnresolvedError =>
      rw [wellTyped] at hwt
      obtain ⟨τ, hts⟩ := tyIsSingle_types ty hwt
      refine ⟨s, d, [Value.NonRef], by rw [exp], hok, ?_⟩
      exact kindsOk_of_single _ τ _ (by simpa [Exp.ty] using hts)
        (kindOk_nonref τ)
    | Cast e1 =>
      rw [wellTyped.eq_def] at hwt
      simp only [] at hwt
      simp only [Bool.and_eq_true] at hwt
      obtain ⟨⟨hwt1, hbase⟩, hsing⟩ := hwt
      obtain ⟨s1, d1, vs1, he1, hok1, hk1⟩ := expPreserve Γ e1 s d hok hwt1
      obtain ⟨τ1, hts1, hb1⟩ := tyIsSingleBase_types e1.ty hbase
      obtain ⟨v1, hvs1, hkv1⟩ := kindsOk_one τ1 vs1 (by rw [← hts1]; exact hk1)
      have hnr : v1.is_ref = false := kindOk_base τ1 v1 hkv1 hb1
      obtain ⟨τ, hts⟩ := tyIsSingle_types ty hsing
      subst hvs1
      refine ⟨s1, d1, [Value.NonRef], ?_, hok1, ?_⟩
      · rw [exp]
        simp only [he1]
        simp [assert_single_value, hnr]
      · exact kindsOk_of_single _ τ _ (by simpa [Exp.ty] using hts)
          (kindOk_nonref τ)
    | UnaryExp e1 =>
      rw [wellTyped.eq_def] at hwt
      simp only [] at hwt
      simp only [Bool.and_eq_true] at hwt
      obtain ⟨⟨hwt1, hbase⟩, hsing⟩ := hwt
      obtain ⟨s1, d1, vs1, he1, hok1, hk1⟩ := expPreserve Γ e1 s d hok hwt1
      obtain ⟨τ1, hts1, hb1⟩ := tyIsSingleBase_types e1.ty hbase
      obtain ⟨v1, hvs1, hkv1⟩ := kindsOk_one τ1 vs1 (by rw [← hts1]; exact hk1)
      have hnr : v1.is_ref = false := kindOk_base τ1 v1 hkv1 hb1
      obtain ⟨τ, hts⟩ := tyIsSingle_types ty hsing
      subst hvs1
      refine ⟨s1, d1, [Value.NonRef], ?_, hok1, ?_⟩
      · rw [exp]
        simp only [he1]
        simp [assert_single_value, hnr]
      · exact kindsOk_of_single _ τ _ (by simpa [Exp.ty] using hts)
          (kindOk_nonref τ)
    | BinopExp e1 op e2 =>
      rw [wellTyped.eq_def] at hwt
      simp only [] at hwt
      simp only [Bool.and_eq_true] at hwt
      obtain ⟨⟨⟨⟨⟨hwt1, hwt2⟩, hsty⟩, hs1⟩, hs2⟩, hop⟩ := hwt
      obtain ⟨sa, da, vsa, hea, hoka, hka⟩ := expPreserve Γ e1 s d hok hwt1
      obtain ⟨τ1, hts1⟩ := tyIsSingle_types e1.ty hs1
      obtain ⟨v1, hva, hkv1⟩ := kindsOk_one τ1 vsa (by rw [← hts1]; exact hka)
      subst hva
      obtain ⟨sb, db, vsb, heb, hokb, hkb⟩ := expPreserve Γ e2 sa da hoka hwt2
      obtain ⟨τ2, hts2⟩ := tyIsSingle_types e2.ty hs2
      obtain ⟨v2, hvb, hkv2⟩ := kindsOk_one τ2 vsb (by rw [← hts2]; exact hkb)
      subst hvb
      obtain ⟨τ, hts⟩ := tyIsSingle_types ty hsty
      cases op with
              | Eq =>
                refine ⟨sb, db, [Value.NonRef], ?_, hokb, ?_⟩
                · rw [exp]
                  simp only [hea, heb]
                  simp [assert_single_value, eqDeref_spec]
                · exact kindsOk_of_single _ τ _ (by simpa [Exp.ty] using hts)
                    (kindOk_nonref τ)
              | Neq =>
                refine ⟨sb, db, [Value.NonRef], ?_, hokb, ?_⟩
                · rw [exp]
                  simp only [hea, heb]
                  simp [assert_single_value, eqDeref_spec]
                · exact kindsOk_of_single _ τ _ (by simpa [Exp.ty] using hts)
                    (kindOk_nonref τ)
              | Add =>
                simp only [] at hop
                simp only [Bool.and_eq_true] at hop
                obtain ⟨hb1, hb2⟩ := hop
                rw [tyIsSingleBase, hts1] at hb1
                rw [tyIsSingleBase, hts2] at hb2
                have hnr1 : v1.is_ref = false := kindOk_base τ1 v1 hkv1 hb1
                have hnr2 : v2.is_ref = false := kindOk_base τ2 v2 hkv2 hb2
                refine ⟨sb, db, [Value.NonRef], ?_, hokb, ?_⟩
                · rw [exp]
                  simp only [hea, heb]
                  simp [assert_single_value, hnr1, hnr2]
                · exact kindsOk_of_single _ τ _ (by simpa [Exp.ty] using hts)
                    (kindOk_nonref τ)
              | Sub =>
                simp only [] at hop
                simp only [Bool.and_eq_true] at hop
                obtain ⟨hb1, hb2⟩ := hop
                rw [tyIsSingleBase, hts1] at hb1
                rw [tyIsSingleBase, hts2] at hb2
                have hnr1 : v1.is_ref = false := kindOk_base τ1 v1 hkv1 hb1
                have hnr2 : v2.is_ref = false := kindOk_base τ2 v2 hkv2 hb2
                refine ⟨sb, db, [Value.NonRef], ?_, hokb, ?_⟩
                · rw [exp]
                  simp only [hea, heb]
                  simp [assert_single_value, hnr1, hnr2]
                · exact kindsOk_of_single _ τ _ (by simpa [Exp.ty] using hts)
                    (kindOk_nonref τ)
              | Mul =>
                simp only [] at hop
                simp only [Bool.and_eq_true] at hop
                obtain ⟨hb1, hb2⟩ := hop
                rw [tyIsSingleBase, hts1] at hb1
                rw [tyIsSingleBase, hts2] at hb2
                have hnr1 : v1.is_ref = false := kindOk_base τ1 v1 hkv1 hb1
                have hnr2 : v2.is_ref = false := kindOk_base τ2 v2 hkv2 hb2
                refine ⟨sb, db, [Value.NonRef], ?_, hokb, ?_⟩
                · rw [exp]
                  simp only [hea, heb]
                  simp [assert_single_value, hnr1, hnr2]
                · exact kindsOk_of_single _ τ _ (by simpa [Exp.ty] using hts)
                    (kindOk_nonref τ)
              | Div =>
                simp only [] at hop
                simp only [Bool.and_eq_true] at hop
                obtain ⟨hb1, hb2⟩ := hop
                rw [tyIsSingleBase, hts1] at hb1
                rw [tyIsSingleBase, hts2] at hb2
                have hnr1 : v1.is_ref = false := kindOk_base τ1 v1 hkv1 hb1
                have hnr2 : v2.is_ref = false := kindOk_base τ2 v2 hkv2 hb2
                refine ⟨sb, db, [Value.NonRef], ?_, hokb, ?_⟩
                · rw [exp]
                  simp only [hea, heb]
                  simp [assert_single_value, hnr1, hnr2]
                · exact kindsOk_of_single _ τ _ (by simpa [Exp.ty] using hts)
                    (kindOk_nonref τ)
              | Lt =>
                simp only [] at hop
                simp only [Bool.and_eq_true] at hop
                obtain ⟨hb1, hb2⟩ := hop
                rw [tyIsSingleBase, hts1] at hb1
                rw [tyIsSingleBase, hts2] at hb2
                have hnr1 : v1.is_ref = false := kindOk_base τ1 v1 hkv1 hb1
                have hnr2 : v2.is_ref = false := kindOk_base τ2 v2 hkv2 hb2
                refine ⟨sb, db, [Value.NonRef], ?_, hokb, ?_⟩
                · rw [exp]
                  simp only [hea, heb]
                  simp [assert_single_value, hnr1, hnr2]
                · exact kindsOk_of_single _ τ _ (by simpa [Exp.ty] using hts)
                    (kindOk_nonref τ)
              | Gt =>
                simp only [] at hop
                simp only [Bool.and_eq_true] at hop
                obtain ⟨hb1, hb2⟩ := hop
                rw [tyIsSingleBase, hts1] at hb1
                rw [tyIsSingleBase, hts2] at hb2
                have hnr1 : v1.is_ref = false := kindOk_base τ1 v1 hkv1 hb1
                have hnr2 : v2.is_ref = false := kindOk_base τ2 v2 hkv2 hb2
                refine ⟨sb, db, [Value.NonRef], ?_, hokb, ?_⟩
                · rw [exp]
                  simp only [hea, heb]
                  simp [assert_single_value, hnr1, hnr2]
                · exact kindsOk_of_single _ τ _ (by simpa [Exp.ty] using hts)
                    (kindOk_nonref τ)
              | And =>
                simp only [] at hop
                simp only [Bool.and_eq_true] at hop
                obtain ⟨hb1, hb2⟩ := hop
                rw [tyIsSingleBase, hts1] at hb1
                rw [tyIsSingleBase, hts2] at hb2
                have hnr1 : v1.is_ref = false := kindOk_base τ1 v1 hkv1 hb1
                have hnr2 : v2.is_ref = false := kindOk_base τ2 v2 hkv2 hb2
                refine ⟨sb, db, [Value.NonRef], ?_, hokb, ?_⟩
                · rw [exp]
                  simp only [hea, heb]
                  simp [assert_single_value, hnr1, hnr2]
                · exact kindsOk_of_single _ τ _ (by simpa [Exp.ty] using hts)
                    (kindOk_nonref τ)
              | Or =>
                simp only [] at hop
                simp only [Bool.and_eq_true] at hop
                obtain ⟨hb1, hb2⟩ := hop
                rw [tyIsSingleBase, hts1] at hb1
                rw [tyIsSingleBase, hts2] at hb2
                have hnr1 : v1.is_ref = false := kindOk_base τ1 v1 hkv1 hb1
                have hnr2 : v2.is_ref = false := kindOk_base τ2 v2 hkv2 hb2
                refine ⟨sb, db, [Value.NonRef], ?_, hokb, ?_⟩
                · rw [exp]
                  simp only [hea, heb]
                  simp [assert_single_value, hnr1, hnr2]
                · exact kindsOk_of_single _ τ _ (by simpa [Exp.ty] using hts)
                    (kindOk_nonref τ)
    | Pack fields =>
      rw [wellTyped] at hwt
      simp only [Bool.and_eq_true] at hwt
      obtain ⟨hpf, hsing⟩ := hwt
      obtain ⟨s2, d2, hp, hok2⟩ := packPreserve Γ fields s d hok hpf
      obtain ⟨τ, hts⟩ := tyIsSingle_types ty hsing
      refine ⟨s2, d2, [Value.NonRef], ?_, hok2, ?_⟩
      · rw [exp]
        simp only [hp]
      · exact kindsOk_of_single _ τ _ (by simpa [Exp.ty] using hts)
          (kindOk_nonref τ)
    | ExpList items =>
      rw [wellTyped] at hwt
      simp only [Bool.and_eq_true] at hwt
      obtain ⟨hits, heqt⟩ := hwt
      obtain ⟨s2, d2, vs, hi, hok2, hk⟩ := itemsPreserve Γ items s d hok hits
      refine ⟨s2, d2, vs, ?_, hok2, ?_⟩
      · rw [exp]
        exact hi
      · have heq2 : ty.typesOf = itemsTypes items := of_decide_eq_true heqt
        simp only [Exp.ty, heq2]
        exact hk
    | Unreachable => rw [wellTyped] at hwt; simp at hwt
termination_by sizeOf e

theorem itemsPreserve (Γ : TypeEnv) (items : List ExpListItem) (s : MState)
    (d : List MDiag) (hok : StateOK Γ s = true)
    (hwt : itemsWellTyped Γ items = true) :
    ∃ (s2 : MState) (d2 : List MDiag) (vs : Values),
      expListItems specOps ⟨s, d⟩ items = some (⟨s2, d2⟩, vs) ∧
      StateOK Γ s2 = true ∧ kindsOk (itemsTypes items) vs = true := by
  cases hit : items with
  | nil =>
    refine ⟨s, d, [], by rw [expListItems], hok, by rw [itemsTypes]; rfl⟩
  | cons item rest =>
    cases item with
    | Single e1 =>
      rw [hit] at hwt
      simp only [itemsWellTyped, Bool.and_eq_true] at hwt
      obtain ⟨hwe, hwr⟩ := hwt
      obtain ⟨s1, d1, vs1, he1, hok1, hk1⟩ := expPreserve Γ e1 s d hok hwe
      obtain ⟨s2, d2, vs2, hr2, hok2, hk2⟩ := itemsPreserve Γ rest s1 d1 hok1 hwr
      refine ⟨s2, d2, vs1 ++ vs2, ?_, hok2, ?_⟩
      · rw [expListItems]
        have hsi : exp_list_item specOps ⟨s, d⟩ (.Single e1) =
            some (⟨s1, d1⟩, vs1) := by rw [exp_list_item]; exact he1
        simp only [hsi, hr2]
      · rw [itemsTypes]
        exact kindsOk_append _ _ _ _ hk1 hk2
    | Splat e1 =>
      rw [hit] at hwt
      simp only [itemsWellTyped, Bool.and_eq_true] at hwt
      obtain ⟨hwe, hwr⟩ := hwt
      obtain ⟨s1, d1, vs1, he1, hok1, hk1⟩ := expPreserve Γ e1 s d hok hwe
      obtain ⟨s2, d2, vs2, hr2, hok2, hk2⟩ := itemsPreserve Γ rest s1 d1 hok1 hwr
      refine ⟨s2, d2, vs1 ++ vs2, ?_, hok2, ?_⟩
      · rw [expListItems]
        have hsi : exp_list_item specOps ⟨s, d⟩ (.Splat e1) =
            some (⟨s1, d1⟩, vs1) := by rw [exp_list_item]; exact he1
        simp only [hsi, hr2]
      · rw [itemsTypes]
        exact kindsOk_append _ _ _ _ hk1 hk2
termination_by sizeOf items
decreasing_by all_goals (subst_vars; simp_wf; try omega)

theorem packPreserve (Γ : TypeEnv) (fields : List (Field × Exp)) (s : MState)
    (d : List MDiag) (hok : StateOK Γ s = true)
    (hwt : packWellTyped Γ fields = true) :
    ∃ (s2 : MState) (d2 : List MDiag),
      packFields specOps ⟨s, d⟩ fields = some ⟨s2, d2⟩ ∧
      StateOK Γ s2 = true := by
  cases hfs : fields with
  | nil => exact ⟨s, d, by rw [packFields], hok⟩
  | cons hd rest =>
    obtain ⟨f, e1⟩ := hd
    have hlt1 : sizeOf e1 < sizeOf fields := by rw [hfs]; simp_arith
    have hlt2 : sizeOf rest < sizeOf fields := by rw [hfs]; simp_arith
    rw [hfs] at hwt
    simp only [packWellTyped, Bool.and_eq_true] at hwt
    obtain ⟨⟨hwe, hbase⟩, hwr⟩ := hwt
    obtain ⟨s1, d1, vs1, he1, hok1, hk1⟩ := expPreserve Γ e1 s d hok hwe
    obtain ⟨τ1, hts1, hb1⟩ := tyIsSingleBase_types e1.ty hbase
    obtain ⟨v1, hvs1, hkv1⟩ := kindsOk_one τ1 vs1 (by rw [← hts1]; exact hk1)
    have hnr : v1.is_ref = false := kindOk_base τ1 v1 hkv1 hb1
    subst hvs1
    obtain ⟨s2, d2, hp2, hok2⟩ := packPreserve Γ rest s1 d1 hok1 hwr
    refine ⟨s2, d2, ?_, hok2⟩
    rw [packFields]
    simp only [he1]
    simp [assert_single_value, hnr, hp2]
termination_by sizeOf fields
decreasing_by all_goals (simp_wf; try assumption; try omega)

end

theorem lvalueNR_main (Γ : TypeEnv) : ∀ n : Nat,
    (∀ (l : LValue) (s : MState) (d : List MDiag), sizeOf l ≤ n →
      StateOK Γ s = true →
      ∃ s2 d2, lvalue specOps ⟨s, d⟩ l Value.NonRef = some ⟨s2, d2⟩ ∧
        StateOK Γ s2 = true) ∧
    (∀ (fields : List (Field × LValue)) (s : MState) (d : List MDiag),
      sizeOf fields ≤ n → StateOK Γ s = true →
      ∃ s2 d2, unpackFields specOps ⟨s, d⟩ fields = some ⟨s2, d2⟩ ∧
        StateOK Γ s2 = true) := by
  intro n
  induction n using Nat.strong_induction_on with
  | _ n ih =>
    constructor
    · intro l s d hsz hok
      cases l with
      | Ignore loc =>
        refine ⟨specOps.release_value s Value.NonRef, d, by rw [lvalue], ?_⟩
        exact hok
      | Var loc v =>
        refine ⟨(MState.assign_local s loc v Value.NonRef).1,
          d ++ (MState.assign_local s loc v Value.NonRef).2,
          by rw [lvalue]; rfl, ?_⟩
        exact ok_assign_local Γ s loc v Value.NonRef hok (by intro τv h1 h2; rfl)
      | Unpack loc fields =>
        rw [lvalue]
        simp only [Value.is_ref, Bool.false_eq_true, if_false]
        have hlt : sizeOf fields < n := by
          have h1 : sizeOf fields < sizeOf (LValue.Unpack loc fields) := by
            simp_arith
          omega
        exact (ih (sizeOf fields) hlt).2 fields s d (le_refl _) hok
    · intro fields s d hsz hok
      cases hfs : fields with
      | nil => exact ⟨s, d, by rw [unpackFields], hok⟩
      | cons hd rest =>
        obtain ⟨f, l⟩ := hd
        have hlt1 : sizeOf l < n := by
          have h1 : sizeOf l < sizeOf fields := by rw [hfs]; simp_arith
          omega
        have hlt2 : sizeOf rest < n := by
          have h1 : sizeOf rest < sizeOf fields := by rw [hfs]; simp_arith
          omega
        obtain ⟨s1, d1, hl1, hok1⟩ :=
          (ih (sizeOf l) hlt1).1 l s d (le_refl _) hok
        obtain ⟨s2, d2, hr2, hok2⟩ :=
          (ih (sizeOf rest) hlt2).2 rest s1 d1 (le_refl _) hok1
        refine ⟨s2, d2, ?_, hok2⟩
        rw [unpackFields]
        simp only [hl1, hr2]

theorem lvalueNonRefPreserve (Γ : TypeEnv) (l : LValue) (s : MState)
    (d : List MDiag) (hok : StateOK Γ s = true) :
    ∃ s2 d2, lvalue specOps ⟨s, d⟩ l Value.NonRef = some ⟨s2, d2⟩ ∧
      StateOK Γ s2 = true :=
  (lvalueNR_main Γ (sizeOf l)).1 l s d (le_refl _) hok

theorem unpackFieldsPreserve (Γ : TypeEnv) (fields : List (Field × LValue))
    (s : MState) (d : List MDiag) (hok : StateOK Γ s = true) :
    ∃ s2 d2, unpackFields specOps ⟨s, d⟩ fields = some ⟨s2, d2⟩ ∧
      StateOK Γ s2 = true :=
  (lvalueNR_main Γ (sizeOf fields)).2 fields s d (le_refl _) hok

theorem lvaluePreserve (Γ : TypeEnv) (l : LValue) (τ : SingleType)
    (value : Value) (s : MState) (d : List MDiag) (hok : StateOK Γ s = true)
    (hwt : lvalueWT Γ l τ = true) (hk : kindOk τ value = true) :
    ∃ s2 d2, lvalue specOps ⟨s, d⟩ l value = some ⟨s2, d2⟩ ∧
      StateOK Γ s2 = true := by
  cases l with
  | Ignore loc =>
    refine ⟨specOps.release_value s value, d, by rw [lvalue], ?_⟩
    cases value with
    | NonRef => exact hok
    | Ref id =>
      exact (StateOK_locals_eq Γ _ s rfl).trans hok
  | Var loc v =>
    rw [lvalueWT] at hwt
    refine ⟨(MState.assign_local s loc v value).1,
      d ++ (MState.assign_local s loc v value).2,
      by rw [lvalue]; rfl, ?_⟩
    apply ok_assign_local Γ s loc v value hok
    intro τv h1 h2
    rw [h1] at hwt
    simp only [h2, Bool.not_true, Bool.false_or] at hwt
    exact kindOk_base τ value hk hwt
  | Unpack loc fields =>
    rw [lvalueWT] at hwt
    have hnr : value.is_ref = false := kindOk_base τ value hk hwt
    have hve := nonref_of_is_ref_false value hnr
    subst hve
    rw [lvalue]
    simp only [Value.is_ref, Bool.false_eq_true, if_false]
    exact unpackFieldsPreserve Γ fields s d hok

theorem lvaluesZippedPreserve (Γ : TypeEnv) :
    ∀ (ls : List LValue) (tys : List SingleType) (vs : Values) (s : MState)
      (d : List MDiag), StateOK Γ s = true → lvaluesWT Γ ls tys = true →
      kindsOk tys vs = true →
    ∃ s2 d2, lvaluesZipped specOps ⟨s, d⟩ (ls.zip vs) = some ⟨s2, d2⟩ ∧
      StateOK Γ s2 = true := by
  intro ls
  induction ls with
  | nil =>
    intro tys vs s d hok hwt hk
    exact ⟨s, d, by rw [List.zip_nil_left, lvaluesZipped], hok⟩
  | cons l ls ih =>
    intro tys vs s d hok hwt hk
    cases vs with
    | nil => exact ⟨s, d, by rw [List.zip_nil_right, lvaluesZipped], hok⟩
    | cons v vs2 =>
      cases tys with
      | nil => simp [kindsOk] at hk
      | cons τ tys2 =>
        rw [kindsOk] at hk
        simp only [Bool.and_eq_true] at hk
        rw [lvaluesWT] at hwt
        simp only [List.zip_cons_cons, List.all_cons, Bool.and_eq_true] at hwt
        obtain ⟨s1, d1, hl1, hok1⟩ :=
          lvaluePreserve Γ l τ v s d hok hwt.1 hk.1
        obtain ⟨s2, d2, hr2, hok2⟩ :=
          ih tys2 vs2 s1 d1 hok1 (by rw [lvaluesWT]; exact hwt.2) hk.2
        refine ⟨s2, d2, ?_, hok2⟩
        rw [List.zip_cons_cons, lvaluesZipped]
        simp only [hl1, hr2]

theorem cmdPreserve (Γ : TypeEnv) (c : Command) (s : MState) (d : List MDiag)
    (hok : StateOK Γ s = true) (hwt : cmdWellTyped Γ c = true) :
    ∃ c2 : Context MState MDiag, command specOps ⟨s, d⟩ c = some c2 ∧
      StateOK Γ c2.borrow_state = true := by
  obtain ⟨cloc, cmd⟩ := c
  cases cmd with
  | Assign ls e =>
    rw [cmdWellTyped] at hwt
    simp only [Bool.and_eq_true] at hwt
    obtain ⟨hwe, hwl⟩ := hwt
    obtain ⟨s1, d1, vs1, he1, hok1, hk1⟩ := expPreserve Γ e s d hok hwe
    obtain ⟨s2, d2, hz, hok2⟩ :=
      lvaluesZippedPreserve Γ ls e.ty.typesOf vs1 s1 d1 hok1 hwl hk1
    refine ⟨⟨s2, d2⟩, ?_, hok2⟩
    rw [command]
    simp only [he1]
    rw [lvalues]
    exact hz
  | Mutate el er =>
    rw [cmdWellTyped] at hwt
    simp only [Bool.and_eq_true] at hwt
    obtain ⟨⟨⟨hwer, hber⟩, hwel⟩, hsel⟩ := hwt
    obtain ⟨s1, d1, vs1, he1, hok1, hk1⟩ := expPreserve Γ er s d hok hwer
    obtain ⟨τ1, hts1, hb1⟩ := tyIsSingleBase_types er.ty hber
    obtain ⟨v1, hvs1, hkv1⟩ := kindsOk_one τ1 vs1 (by rw [← hts1]; exact hk1)
    have hnr : v1.is_ref = false := kindOk_base τ1 v1 hkv1 hb1
    subst hvs1
    obtain ⟨s2, d2, vs2, he2, hok2, hk2⟩ := expPreserve Γ el s1 d1 hok1 hwel
    obtain ⟨τ2, hts2⟩ := tyIsSingle_types el.ty hsel
    obtain ⟨v2, hvs2, hkv2⟩ := kindsOk_one τ2 vs2 (by rw [← hts2]; exact hk2)
    subst hvs2
    refine ⟨⟨(MState.mutate s2 cloc v2).1, d2 ++ (MState.mutate s2 cloc v2).2⟩,
      ?_, ?_⟩
    · rw [command]
      simp only [he1]
      simp [assert_single_value, hnr, he2]
      exact ⟨rfl, rfl⟩
    · have hst : (MState.mutate s2 cloc v2).1 = s2 := by
        cases v2 with
        | NonRef => rfl
        | Ref id =>
          rw [MState.mutate.eq_def]
          simp only []
          split <;> rfl
      rw [hst]
      exact hok2
  | JumpIf e =>
    rw [cmdWellTyped] at hwt
    simp only [Bool.and_eq_true] at hwt
    obtain ⟨hwe, hbe⟩ := hwt
    obtain ⟨s1, d1, vs1, he1, hok1, hk1⟩ := expPreserve Γ e s d hok hwe
    obtain ⟨τ1, hts1, hb1⟩ := tyIsSingleBase_types e.ty hbe
    obtain ⟨v1, hvs1, hkv1⟩ := kindsOk_one τ1 vs1 (by rw [← hts1]; exact hk1)
    have hnr : v1.is_ref = false := kindOk_base τ1 v1 hkv1 hb1
    subst hvs1
    refine ⟨⟨s1, d1⟩, ?_, hok1⟩
    rw [command]
    simp only [he1]
    simp [assert_single_value, hnr]
  | IgnoreAndPop e =>
    rw [cmdWellTyped] at hwt
    obtain ⟨s1, d1, vs1, he1, hok1, hk1⟩ := expPreserve Γ e s d hok hwt
    refine ⟨⟨MState.release_values s1 vs1, d1⟩, ?_, ?_⟩
    · rw [command]
      simp only [he1]
      rfl
    · exact ok_release_values Γ s1 vs1 hok1
  | Return e =>
    rw [cmdWellTyped] at hwt
    obtain ⟨s1, d1, vs1, he1, hok1, hk1⟩ := expPreserve Γ e s d hok hwt
    refine ⟨⟨(MState.return_ s1 cloc vs1).1, d1 ++ (MState.return_ s1 cloc vs1).2⟩,
      ?_, ?_⟩
    · rw [command]
      simp only [he1]
      rfl
    · rw [MState.return_]
      exact hok1
  | Abort e =>
    rw [cmdWellTyped] at hwt
    simp only [Bool.and_eq_true] at hwt
    obtain ⟨hwe, hbe⟩ := hwt
    obtain ⟨s1, d1, vs1, he1, hok1, hk1⟩ := expPreserve Γ e s d hok hwe
    obtain ⟨τ1, hts1, hb1⟩ := tyIsSingleBase_types e.ty hbe
    obtain ⟨v1, hvs1, hkv1⟩ := kindsOk_one τ1 vs1 (by rw [← hts1]; exact hk1)
    have hnr : v1.is_ref = false := kindOk_base τ1 v1 hkv1 hb1
    subst hvs1
    refine ⟨⟨MState.abort s1, d1⟩, ?_, ?_⟩
    · rw [command]
      simp only [he1]
      simp [assert_single_value, hnr]
      rfl
    · rw [MState.abort]
      exact hok1
  | Jump => exact ⟨⟨s, d⟩, by rw [command], hok⟩
  | Break => rw [cmdWellTyped] at hwt; simp at hwt
  | Continue => rw [cmdWellTyped] at hwt; simp at hwt


theorem addNumbered_eq (T : Type) :
    ∀ (l : List (Var × T)) (m : UniqueMap Var Nat) (idx : Nat),
    (l.map Prod.fst).Nodup →
    (∀ k, k ∈ l.map Prod.fst → k ∉ m.entries.map Prod.fst) →
    addNumbered m idx l =
      some ⟨m.entries ++ (l.enumFrom idx).map (fun p => (p.2.1, p.1))⟩ := by
  intro l
  induction l with
  | nil => intro m idx h1 h2; simp [addNumbered]
  | cons hd tl ih =>
    intro m idx hnd hfresh
    obtain ⟨v, t⟩ := hd
    have hv : v ∉ m.entries.map Prod.fst := hfresh v (by simp)
    have hnd1 : (v :: tl.map Prod.fst).Nodup := by
      rw [List.map_cons] at hnd; exact hnd
    have hnd2 : (tl.map Prod.fst).Nodup := (List.nodup_cons.mp hnd1).2
    have hvtl : v ∉ tl.map Prod.fst := (List.nodup_cons.mp hnd1).1
    have hadd : m.add v idx = some ⟨m.entries ++ [(v, idx)]⟩ := by
      rw [UniqueMap.add, if_neg (by simpa using hv)]
    rw [addNumbered, hadd]
    show addNumbered ⟨m.entries ++ [(v, idx)]⟩ (idx + 1) tl = _
    rw [ih ⟨m.entries ++ [(v, idx)]⟩ (idx + 1) hnd2 ?_]
    · simp [List.enumFrom]
    · intro k hk
      simp only [List.map_append, List.mem_append]
      push_neg
      refine ⟨hfresh k (by simp [hk]), ?_⟩
      simp only [List.map_cons, List.map_nil, List.mem_singleton]
      intro hkv
      exact hvtl (by simpa [hkv] using hk)

/-- C4: BorrowSafety::new gives every local a distinct numeric index equal
to its position in the iteration (declaration) order of the locals map: the
produced entries pair the local at position i with index i, and the indices
are exactly the range of positions, hence distinct; the numbering is a pure
function of the locals computed once per function. -/
theorem borrowSafety_new_declaration_order (T : Type)
    (local_types : UniqueMap Var T)
    (h : (local_types.entries.map Prod.fst).Nodup) :
    BorrowSafety.new local_types =
      some ⟨⟨local_types.entries.enum.map (fun p => (p.2.1, p.1))⟩⟩ ∧
    (local_types.entries.enum.map (fun p => (p.2.1, p.1))).map Prod.snd =
      List.range local_types.entries.length := by
  constructor
  · rw [BorrowSafety.new,
      addNumbered_eq T local_types.entries UniqueMap.empty 0 h
        (by simp [UniqueMap.empty])]
    simp [UniqueMap.empty, List.enum]
  · rw [List.map_map]
    have h2 : (Prod.snd ∘ fun p : Nat × (Var × T) => (p.2.1, p.1)) = Prod.fst := rfl
    rw [h2, List.enum_map_fst]

/-- Witness for C4 at a concrete three-local map. -/
theorem borrowSafety_new_declaration_order_witness :
    (([(3, 10), (5, 11), (4, 12)] : List (Var × Nat)).map Prod.fst).Nodup ∧
    BorrowSafety.new (⟨[(3, 10), (5, 11), (4, 12)]⟩ : UniqueMap Var Nat) =
      some ⟨⟨[(3, 0), (5, 1), (4, 2)]⟩⟩ := by
  refine ⟨by decide, ?_⟩
  have h := borrowSafety_new_declaration_order Nat ⟨[(3, 10), (5, 11), (4, 12)]⟩
    (by decide)
  simpa using h.1

theorem zip_take_eq (α β : Type) :
    ∀ (ls : List α) (vs : List β),
    ls.zip vs = (ls.take vs.length).zip (vs.take ls.length) := by
  intro ls
  induction ls with
  | nil => intro vs; simp
  | cons a ls ih =>
    intro vs
    cases vs with
    | nil => simp
    | cons b vs => simp [ih vs]

/-- C10: the assignment targets are paired with the evaluated values
positionally and the pairing stops at the shorter sequence: lvalues behaves
identically on the truncated sequences, and surplus targets or values are
skipped with no panic and no diagnostic (with no values the context is
returned unchanged, and likewise with no targets). -/
theorem lvalues_stop_at_shorter (σ δ : Type) (ops : StateOps σ δ)
    (context : Context σ δ) (ls : List LValue) (values : Values) :
    lvalues ops context ls values =
      lvalues ops context (ls.take values.length) (values.take ls.length) ∧
    lvalues ops context ls [] = some context ∧
    lvalues ops context [] values = some context := by
  refine ⟨?_, ?_, ?_⟩
  · rw [lvalues, lvalues, ← zip_take_eq]
  · simp [lvalues, lvaluesZipped]
  · simp [lvalues, lvaluesZipped]

/-- C1: the result of analyzing a module call, diagnostics included, is the
same for every value of the acquires declaration of the callee: the
spec-modelled call operation does not consult it (settled against the
specification model of the state module, which is outside the analyzed
sources). -/
theorem moduleCall_ignores_callee_acquires (context : Context MState MDiag)
    (ty : Type_) (eloc : Loc) (acq1 acq2 : List (StructName × Loc))
    (arguments : Exp) :
    exp specOps context (.mk ty eloc (.ModuleCall acq1 arguments)) =
      exp specOps context (.mk ty eloc (.ModuleCall acq2 arguments)) := by
  rw [exp, exp]
  cases exp specOps context arguments with
  | none => rfl
  | some r => rfl

theorem eqDeref_some (σ δ : Type) (ops : StateOps σ δ) (l : Loc) (v : Value)
    (st s2 : σ) (h : eqDeref ops l v st = some s2) :
    s2 = (if v.is_ref then (ops.dereference st l v).1 else st) := by
  rw [eqDeref] at h
  by_cases hv : v.is_ref = true
  · simp only [hv, if_true] at h ⊢
    by_cases he : ((ops.dereference st l v).2.1).isEmpty = true
    · simp [he] at h; exact h.symm
    · simp [he] at h
  · simp [hv] at h ⊢
    exact h.symm

/-- C2: whenever an Eq or Neq comparison is analyzed, each reference operand
is dereferenced before the comparison (the final state is the state after
the operand evaluations with the dereferences applied), the result is one
plain value, and no diagnostic beyond those of the two operand
sub-expressions is added: the final diagnostics are exactly the diagnostics
after the second operand. -/
theorem eq_neq_adds_no_diags (σ δ : Type) (ops : StateOps σ δ)
    (context c1 c2 : Context σ δ) (ty : Type_) (eloc : Loc)
    (e1 e2 : Exp) (op : BinOp_) (v1 v2 : Value) (vs1 vs2 : Values)
    (hop : op = .Eq ∨ op = .Neq)
    (h1 : exp ops context e1 = some (c1, vs1))
    (hv1 : assert_single_value vs1 = some v1)
    (h2 : exp ops c1 e2 = some (c2, vs2))
    (hv2 : assert_single_value vs2 = some v2)
    (r : Context σ δ × Values)
    (hr : exp ops context (.mk ty eloc (.BinopExp e1 op e2)) = some r) :
    r.1.diags = c2.diags ∧ r.2 = [Value.NonRef] ∧
    r.1.borrow_state =
      (if v2.is_ref then
        (ops.dereference
          (if v1.is_ref then (ops.dereference c2.borrow_state e1.loc v1).1
           else c2.borrow_state) e1.loc v2).1
       else
        (if v1.is_ref then (ops.dereference c2.borrow_state e1.loc v1).1
         else c2.borrow_state)) := by
  rw [exp] at hr
  simp only [h1, hv1, h2, hv2] at hr
  rcases hop with h | h <;> subst h <;> simp only [] at hr <;>
    (cases hd1 : eqDeref ops e1.loc v1 c2.borrow_state with
     | none => simp only [hd1] at hr; exact absurd hr (by simp)
     | some s3 =>
       simp only [hd1] at hr
       cases hd2 : eqDeref ops e1.loc v2 s3 with
       | none => simp only [hd2] at hr; exact absurd hr (by simp)
       | some s4 =>
         simp only [hd2] at hr
         have e3 := eqDeref_some σ δ ops e1.loc v1 c2.borrow_state s3 hd1
         have e4 := eqDeref_some σ δ ops e1.loc v2 s3 s4 hd2
         simp at hr
         subst e3 e4
         simp [← hr])

/-- Witness for C2: an equality whose left operand is a reference produced
by borrowing local 0; the comparison dereferences it and adds no
diagnostic. -/
theorem eq_neq_adds_no_diags_witness :
    exp specOps ⟨demoState, []⟩
        (.mk (.Single (.Base 0)) 3
          (.BinopExp (.mk (.Single (.Ref false 0)) 1 (.BorrowLocal false 0))
            .Eq (.mk (.Single (.Base 0)) 2 .Value))) =
      some (⟨demoStateB, []⟩, [Value.NonRef]) ∧
    ((⟨demoStateB, []⟩, [Value.NonRef]) :
      Context MState MDiag × Values).1.diags = [] := by
  have h1 : exp specOps ⟨demoState, []⟩
      (.mk (.Single (.Ref false 0)) 1 (.BorrowLocal false 0)) =
      some (⟨demoStateB, []⟩, [Value.Ref 0]) := by
    rw [exp]
    simp [specOps, MState.borrow_local, demoState, demoStateB, MState.status,
      lookupStatus, MState.borrowsOn, MState.mutBorrowOn, Value.is_ref]
  have h2 : exp specOps ⟨demoStateB, []⟩ (.mk (.Single (.Base 0)) 2 .Value) =
      some (⟨demoStateB, []⟩, [Value.NonRef]) := by rw [exp]
  have hr : exp specOps ⟨demoState, []⟩
      (.mk (.Single (.Base 0)) 3
        (.BinopExp (.mk (.Single (.Ref false 0)) 1 (.BorrowLocal false 0))
          .Eq (.mk (.Single (.Base 0)) 2 .Value))) =
      some (⟨demoStateB, []⟩, [Value.NonRef]) := by
    rw [exp]
    simp only [h1, h2, assert_single_value]
    simp [eqDeref_spec]
  exact ⟨hr,
    (eq_neq_adds_no_diags _ _ specOps _ _ _ _ _ _ _ _ _ _ _ _
      (Or.inl rfl) h1 rfl h2 rfl _ hr).1⟩

/-- C3: TransferFunctions::execute canonicalizes the borrow state with the
local numbering of the function after the command transfer function has been
applied (the returned state is the canonicalization of the post-command
state, the diagnostics those of the command), and verify hands the fixpoint
engine an initial state canonicalized with the same numbering before
analysis begins. -/
theorem canonicalize_after_every_command :
    (∀ (σ δ : Type) (ops : StateOps σ δ) (safety : BorrowSafety) (pre : σ)
      (cmd : Command) (r : σ × List δ),
      execute ops safety pre cmd = some r →
      ∃ mid : Context σ δ, command ops ⟨pre, []⟩ cmd = some mid ∧
        r.1 = ops.canonicalize_locals mid.borrow_state safety.local_numbers ∧
        r.2 = mid.diags) ∧
    (∀ (σ δ κ ρ : Type)
      (analyze_function : κ → (σ → Command → Option (σ × List δ)) → σ → ρ × List δ)
      (ops : StateOps σ δ) (has_errors : Bool)
      (parameters : List (Var × SingleType))
      (acquires : List (StructName × Loc)) (locals : UniqueMap Var SingleType)
      (cfg : κ) (safety : BorrowSafety),
      BorrowSafety.new locals = some safety →
      verify analyze_function ops has_errors parameters acquires locals cfg =
        some (analyze_function cfg (execute ops safety)
          (ops.canonicalize_locals
            (ops.bind_arguments (ops.initial locals acquires has_errors)
              parameters)
            safety.local_numbers))) := by
  constructor
  · intro σ δ ops safety pre cmd r hr
    rw [execute] at hr
    cases hcmd : command ops ⟨pre, []⟩ cmd with
    | none => rw [hcmd] at hr; exact absurd hr (by simp)
    | some mid =>
      rw [hcmd] at hr
      refine ⟨mid, rfl, ?_, ?_⟩ <;> simp at hr <;> simp [← hr]
  · intro σ δ κ ρ analyze_function ops has_errors parameters acquires locals
      cfg safety hnew
    rw [verify, hnew]

/-- Witness for C3: a Jump command executed from the demonstration state,
and a one-local verify run through a trivial engine. -/
theorem canonicalize_after_every_command_witness :
    (∃ mid : Context MState MDiag,
      command specOps ⟨demoState, []⟩ ⟨0, .Jump⟩ = some mid ∧
      (specOps.canonicalize_locals demoState ⟨[]⟩, ([] : List MDiag)).1 =
        specOps.canonicalize_locals mid.borrow_state
          (⟨⟨[]⟩⟩ : BorrowSafety).local_numbers ∧
      (specOps.canonicalize_locals demoState ⟨[]⟩, ([] : List MDiag)).2 =
        mid.diags) ∧
    verify (fun (_ : Unit) (_ : MState → Command → Option (MState × List MDiag))
        (s : MState) => (s, ([] : List MDiag)))
      specOps false [] [] ⟨[(0, .Base 0)]⟩ () =
      some ((fun (_ : Unit) (_ : MState → Command → Option (MState × List MDiag))
          (s : MState) => (s, ([] : List MDiag))) ()
        (execute specOps ⟨⟨[(0, 0)]⟩⟩)
        (specOps.canonicalize_locals
          (specOps.bind_arguments (specOps.initial ⟨[(0, .Base 0)]⟩ [] false) [])
          (⟨⟨[(0, 0)]⟩⟩ : BorrowSafety).local_numbers)) := by
  constructor
  · exact canonicalize_after_every_command.1 MState MDiag specOps ⟨⟨[]⟩⟩
      demoState ⟨0, .Jump⟩ (specOps.canonicalize_locals demoState ⟨[]⟩, [])
      (by rw [execute]; rfl)
  · exact canonicalize_after_every_command.2 MState MDiag Unit MState _
      specOps false [] [] ⟨[(0, .Base 0)]⟩ () ⟨⟨[(0, 0)]⟩⟩
      (by rw [BorrowSafety.new]; rfl)

/-- C9: a Mutate command evaluates its right-hand side first from the
incoming context, asserts the stored value is a single plain value, then
evaluates the left-hand side from the context the right-hand side produced,
and finally applies the mutate check to that resulting state. -/
theorem mutate_rhs_before_lhs (σ δ : Type) (ops : StateOps σ δ)
    (context c1 c2 : Context σ δ) (cloc : Loc) (el er : Exp)
    (v lv : Value) (vs vsl : Values)
    (h1 : exp ops context er = some (c1, vs))
    (hsv : assert_single_value vs = some v)
    (hv : v.is_ref = false)
    (h2 : exp ops c1 el = some (c2, vsl))
    (hlv : assert_single_value vsl = some lv) :
    command ops context ⟨cloc, .Mutate el er⟩ =
      some ⟨(ops.mutate c2.borrow_state cloc lv).1,
        c2.diags ++ (ops.mutate c2.borrow_state cloc lv).2⟩ := by
  rw [command]
  simp [h1, hsv, hv, h2, hlv]

/-- Witness for C9: mutating through a fresh mutable borrow of local 0 after
evaluating a constant right-hand side. -/
theorem mutate_rhs_before_lhs_witness :
    command specOps ⟨demoState, []⟩
      ⟨9, .Mutate (.mk (.Single (.Ref true 0)) 1 (.BorrowLocal true 0))
        (.mk (.Single (.Base 0)) 2 .Value)⟩ =
      some ⟨(specOps.mutate demoStateBm 9 (Value.Ref 0)).1,
        [] ++ (specOps.mutate demoStateBm 9 (Value.Ref 0)).2⟩ := by
  have h2 : exp specOps ⟨demoState, []⟩
      (.mk (.Single (.Ref true 0)) 1 (.BorrowLocal true 0)) =
      some (⟨demoStateBm, []⟩, [Value.Ref 0]) := by
    rw [exp]
    simp [specOps, MState.borrow_local, demoState, demoStateBm, MState.status,
      lookupStatus, MState.borrowsOn, MState.mutBorrowOn, Value.is_ref]
  have h1 : exp specOps ⟨demoState, []⟩ (.mk (.Single (.Base 0)) 2 .Value) =
      some (⟨demoState, []⟩, [Value.NonRef]) := by rw [exp]
  exact mutate_rhs_before_lhs _ _ specOps ⟨demoState, []⟩ ⟨demoState, []⟩
    ⟨demoStateBm, []⟩ 9 _ _ Value.NonRef (Value.Ref 0) [Value.NonRef]
    [Value.Ref 0] h1 rfl rfl h2 rfl

/-- C7: the borrow-state operations are applied left to right exactly as the
source lists them, in every compound arm of exp and command: each
subexpression is evaluated (its operations applied) before the parent form
applies its own operation, and the left operand (or earlier list item or
field) before the right (or later); Eq/Neq evaluates the first operand,
then the second, then dereferences each reference operand at the first
operand's location; another binop, Cast, UnaryExp, Vector and JumpIf add no
operation after their operands; Freeze, Dereference, field Borrow,
BorrowGlobal, MoveFrom and the generic builtin call apply their operation
after the subexpression; ModuleCall applies call after its arguments;
ExpList and Pack apply the head item before the remaining items; Assign
evaluates the expression before the assignment targets; IgnoreAndPop,
Abort and Return apply release_values, abort and return_ after their
expression. Observed on a state that records operations as a trace of
events. -/
theorem exp_applies_ops_left_to_right :
    (∀ (ty : Type_) (eloc : Loc) (e1 e2 : Exp) (op : BinOp_)
      (tr0 t1 t2 : List Event) (v1 v2 : Value),
      op = .Eq ∨ op = .Neq →
      exp traceOps ⟨tr0, []⟩ e1 = some (⟨tr0 ++ t1, []⟩, [v1]) →
      exp traceOps ⟨tr0 ++ t1, []⟩ e2 = some (⟨tr0 ++ t1 ++ t2, []⟩, [v2]) →
      exp traceOps ⟨tr0, []⟩ (.mk ty eloc (.BinopExp e1 op e2)) =
        some (⟨((tr0 ++ t1 ++ t2) ++
            (if v1.is_ref then [Event.EDeref e1.loc] else [])) ++
            (if v2.is_ref then [Event.EDeref e1.loc] else []), []⟩,
          [Value.NonRef])) ∧
    (∀ (ty : Type_) (eloc : Loc) (e1 e2 : Exp) (op : BinOp_)
      (tr0 t1 t2 : List Event) (v1 v2 : Value),
      op ≠ .Eq → op ≠ .Neq → v1.is_ref = false → v2.is_ref = false →
      exp traceOps ⟨tr0, []⟩ e1 = some (⟨tr0 ++ t1, []⟩, [v1]) →
      exp traceOps ⟨tr0 ++ t1, []⟩ e2 = some (⟨tr0 ++ t1 ++ t2, []⟩, [v2]) →
      exp traceOps ⟨tr0, []⟩ (.mk ty eloc (.BinopExp e1 op e2)) =
        some (⟨tr0 ++ t1 ++ t2, []⟩, [Value.NonRef])) ∧
    (∀ (ty : Type_) (eloc : Loc) (e1 : Exp) (tr0 t1 : List Event) (v1 : Value),
      exp traceOps ⟨tr0, []⟩ e1 = some (⟨tr0 ++ t1, []⟩, [v1]) →
      exp traceOps ⟨tr0, []⟩ (.mk ty eloc (.Freeze e1)) =
        some (⟨(tr0 ++ t1) ++ [Event.EFreeze eloc], []⟩, [Value.Ref 0])) ∧
    (∀ (ty : Type_) (eloc : Loc) (e1 : Exp) (tr0 t1 : List Event) (v1 : Value),
      exp traceOps ⟨tr0, []⟩ e1 = some (⟨tr0 ++ t1, []⟩, [v1]) →
      exp traceOps ⟨tr0, []⟩ (.mk ty eloc (.Dereference e1)) =
        some (⟨(tr0 ++ t1) ++ [Event.EDeref eloc], []⟩, [Value.NonRef])) ∧
    (∀ (ty : Type_) (eloc : Loc) (mut_ : Bool) (e1 : Exp) (f : Field)
      (tr0 t1 : List Event) (v1 : Value),
      exp traceOps ⟨tr0, []⟩ e1 = some (⟨tr0 ++ t1, []⟩, [v1]) →
      exp traceOps ⟨tr0, []⟩ (.mk ty eloc (.Borrow mut_ e1 f)) =
        some (⟨(tr0 ++ t1) ++ [Event.EBorrowField eloc mut_ f], []⟩,
          [Value.Ref 0])) ∧
    (∀ (ty : Type_) (eloc : Loc) (acq : List (StructName × Loc)) (args : Exp)
      (tr0 t1 : List Event) (vs : Values),
      exp traceOps ⟨tr0, []⟩ args = some (⟨tr0 ++ t1, []⟩, vs) →
      exp traceOps ⟨tr0, []⟩ (.mk ty eloc (.ModuleCall acq args)) =
        some (⟨(tr0 ++ t1) ++ [Event.ECall eloc acq ty], []⟩,
          ty.typesOf.map (fun τ => if τ.isBase then Value.NonRef
            else Value.Ref 0))) ∧
    (∀ (cloc : Loc) (e : Exp) (tr0 t1 : List Event) (vs : Values),
      exp traceOps ⟨tr0, []⟩ e = some (⟨tr0 ++ t1, []⟩, vs) →
      command traceOps ⟨tr0, []⟩ ⟨cloc, .Return e⟩ =
        some ⟨(tr0 ++ t1) ++ [Event.EReturn cloc], []⟩) ∧
    (∀ (ty : Type_) (eloc : Loc) (mut_ : Bool) (t : StructName) (e1 : Exp)
      (tr0 t1 : List Event) (v1 : Value),
      v1.is_ref = false →
      exp traceOps ⟨tr0, []⟩ e1 = some (⟨tr0 ++ t1, []⟩, [v1]) →
      exp traceOps ⟨tr0, []⟩
          (.mk ty eloc (.Builtin (.BorrowGlobal mut_ t) e1)) =
        some (⟨(tr0 ++ t1) ++ [Event.EBorrowGlobal eloc mut_ t], []⟩,
          [Value.Ref 0])) ∧
    (∀ (ty : Type_) (eloc : Loc) (t : StructName) (e1 : Exp)
      (tr0 t1 : List Event) (v1 : Value),
      v1.is_ref = false →
      exp traceOps ⟨tr0, []⟩ e1 = some (⟨tr0 ++ t1, []⟩, [v1]) →
      exp traceOps ⟨tr0, []⟩ (.mk ty eloc (.Builtin (.MoveFrom t) e1)) =
        some (⟨(tr0 ++ t1) ++ [Event.EMoveFrom eloc t], []⟩,
          [Value.NonRef])) ∧
    (∀ (ty : Type_) (eloc : Loc) (e1 : Exp) (tr0 t1 : List Event)
      (vs : Values),
      exp traceOps ⟨tr0, []⟩ e1 = some (⟨tr0 ++ t1, []⟩, vs) →
      exp traceOps ⟨tr0, []⟩ (.mk ty eloc (.Builtin .OtherBuiltin e1)) =
        some (⟨(tr0 ++ t1) ++ [Event.ECall eloc [] ty], []⟩,
          ty.typesOf.map (fun τ => if τ.isBase then Value.NonRef
            else Value.Ref 0))) ∧
    (∀ (ty : Type_) (eloc : Loc) (e1 : Exp) (tr0 t1 : List Event) (v1 : Value),
      v1.is_ref = false →
      exp traceOps ⟨tr0, []⟩ e1 = some (⟨tr0 ++ t1, []⟩, [v1]) →
      exp traceOps ⟨tr0, []⟩ (.mk ty eloc (.Cast e1)) =
        some (⟨tr0 ++ t1, []⟩, [Value.NonRef]) ∧
      exp traceOps ⟨tr0, []⟩ (.mk ty eloc (.UnaryExp e1)) =
        some (⟨tr0 ++ t1, []⟩, [Value.NonRef])) ∧
    (∀ (ty : Type_) (eloc : Loc) (e1 : Exp) (tr0 t1 : List Event)
      (vs : Values),
      vs.all (fun v => !v.is_ref) →
      exp traceOps ⟨tr0, []⟩ e1 = some (⟨tr0 ++ t1, []⟩, vs) →
      exp traceOps ⟨tr0, []⟩ (.mk ty eloc (.Vector vs.length e1)) =
        some (⟨tr0 ++ t1, []⟩, [Value.NonRef])) ∧
    (∀ (ty : Type_) (eloc : Loc) (item : ExpListItem)
      (rest : List ExpListItem) (tr0 t1 t2 : List Event) (vs1 vs2 : Values),
      exp_list_item traceOps ⟨tr0, []⟩ item = some (⟨tr0 ++ t1, []⟩, vs1) →
      expListItems traceOps ⟨tr0 ++ t1, []⟩ rest =
        some (⟨tr0 ++ t1 ++ t2, []⟩, vs2) →
      exp traceOps ⟨tr0, []⟩ (.mk ty eloc (.ExpList (item :: rest))) =
        some (⟨tr0 ++ t1 ++ t2, []⟩, vs1 ++ vs2)) ∧
    (∀ (ty : Type_) (eloc : Loc) (f : Field) (e1 : Exp)
      (rest : List (Field × Exp)) (tr0 t1 t2 : List Event) (v1 : Value),
      v1.is_ref = false →
      exp traceOps ⟨tr0, []⟩ e1 = some (⟨tr0 ++ t1, []⟩, [v1]) →
      packFields traceOps ⟨tr0 ++ t1, []⟩ rest = some ⟨tr0 ++ t1 ++ t2, []⟩ →
      exp traceOps ⟨tr0, []⟩ (.mk ty eloc (.Pack ((f, e1) :: rest))) =
        some (⟨tr0 ++ t1 ++ t2, []⟩, [Value.NonRef])) ∧
    (∀ (cloc : Loc) (ls : List LValue) (e : Exp) (tr0 t1 t2 : List Event)
      (vs : Values),
      exp traceOps ⟨tr0, []⟩ e = some (⟨tr0 ++ t1, []⟩, vs) →
      lvaluesZipped traceOps ⟨tr0 ++ t1, []⟩ (ls.zip vs) =
        some ⟨tr0 ++ t1 ++ t2, []⟩ →
      command traceOps ⟨tr0, []⟩ ⟨cloc, .Assign ls e⟩ =
        some ⟨tr0 ++ t1 ++ t2, []⟩) ∧
    (∀ (cloc : Loc) (e : Exp) (tr0 t1 : List Event) (vs : Values),
      exp traceOps ⟨tr0, []⟩ e = some (⟨tr0 ++ t1, []⟩, vs) →
      command traceOps ⟨tr0, []⟩ ⟨cloc, .IgnoreAndPop e⟩ =
        some ⟨(tr0 ++ t1) ++ [Event.EReleaseValues], []⟩) ∧
    (∀ (cloc : Loc) (e : Exp) (tr0 t1 : List Event) (v : Value),
      v.is_ref = false →
      exp traceOps ⟨tr0, []⟩ e = some (⟨tr0 ++ t1, []⟩, [v]) →
      command traceOps ⟨tr0, []⟩ ⟨cloc, .Abort e⟩ =
        some ⟨(tr0 ++ t1) ++ [Event.EAbort], []⟩) ∧
    (∀ (cloc : Loc) (e : Exp) (tr0 t1 : List Event) (v : Value),
      v.is_ref = false →
      exp traceOps ⟨tr0, []⟩ e = some (⟨tr0 ++ t1, []⟩, [v]) →
      command traceOps ⟨tr0, []⟩ ⟨cloc, .JumpIf e⟩ =
        some ⟨tr0 ++ t1, []⟩) := by
  refine ⟨?_, ?_, ?_, ?_, ?_, ?_, ?_, ?_, ?_, ?_, ?_, ?_, ?_, ?_, ?_, ?_,
    ?_, ?_⟩
  · intro ty eloc e1 e2 op tr0 t1 t2 v1 v2 hop h1 h2
    rw [exp]
    simp only [h1, assert_single_value, h2]
    rcases hop with h | h <;> subst h <;>
      simp only [] <;>
      cases hv1 : v1.is_ref <;> cases hv2 : v2.is_ref <;>
      simp [eqDeref, hv1, hv2, traceOps]
  · intro ty eloc e1 e2 op tr0 t1 t2 v1 v2 hne1 hne2 hv1 hv2 h1 h2
    rw [exp]
    simp only [h1, assert_single_value, h2]
    cases op <;> simp_all
  · intro ty eloc e1 tr0 t1 v1 h1
    rw [exp]
    simp only [h1, assert_single_value]
    simp [traceOps]
  · intro ty eloc e1 tr0 t1 v1 h1
    rw [exp]
    simp only [h1, assert_single_value]
    simp [traceOps]
  · intro ty eloc mut_ e1 f tr0 t1 v1 h1
    rw [exp]
    simp only [h1, assert_single_value]
    simp [traceOps]
  · intro ty eloc acq args tr0 t1 vs h1
    rw [exp]
    simp only [h1]
    simp [traceOps]
  · intro cloc e tr0 t1 vs h1
    rw [command]
    simp only [h1]
    simp [traceOps]
  · intro ty eloc mut_ t e1 tr0 t1 v1 hv1 h1
    rw [exp]
    simp only [h1, assert_single_value]
    simp [hv1, traceOps]
  · intro ty eloc t e1 tr0 t1 v1 hv1 h1
    cases v1 with
    | Ref id => simp [Value.is_ref] at hv1
    | NonRef =>
      rw [exp]
      simp only [h1, assert_single_value]
      simp [traceOps, Value.is_ref]
  · intro ty eloc e1 tr0 t1 vs h1
    rw [exp]
    simp only [h1]
    simp [traceOps]
  · intro ty eloc e1 tr0 t1 v1 hv1 h1
    constructor <;>
      (rw [exp]; simp only [h1, assert_single_value]; simp [hv1])
  · intro ty eloc e1 tr0 t1 vs hvs h1
    rw [exp]
    simp only [h1]
    simp [hvs]
  · intro ty eloc item rest tr0 t1 t2 vs1 vs2 h1 h2
    rw [exp]
    simp only [expListItems, h1, h2]
  · intro ty eloc f e1 rest tr0 t1 t2 v1 hv1 h1 h2
    rw [exp]
    simp only [packFields, h1, assert_single_value]
    simp [hv1, h2]
  · intro cloc ls e tr0 t1 t2 vs h1 h2
    rw [command]
    simp only [h1, lvalues, h2]
  · intro cloc e tr0 t1 vs h1
    rw [command]
    simp only [h1]
    simp [traceOps]
  · intro cloc e tr0 t1 v hv h1
    rw [command]
    simp only [h1, assert_single_value]
    simp [hv, traceOps]
  · intro cloc e tr0 t1 v hv h1
    rw [command]
    simp only [h1, assert_single_value]
    simp [hv]

/-- Witness for C7: move of local 1 Eq copy of local 2; the trace records
the move (location 3), then the copy (location 4), and no dereference since
both operands are plain values. -/
theorem exp_applies_ops_left_to_right_witness :
    exp traceOps ⟨[], []⟩
      (.mk (.Single (.Base 0)) 5
        (.BinopExp (.mk (.Single (.Base 0)) 3 (.Move 1 .FromUser)) .Eq
          (.mk (.Single (.Base 0)) 4 (.Copy 2)))) =
      some (⟨(([] ++ [Event.EMove 3 1 false] ++ [Event.ECopy 4 2]) ++
          (if (Value.NonRef).is_ref then
            [Event.EDeref (Exp.mk (.Single (.Base 0)) 3
              (.Move 1 .FromUser)).loc] else [])) ++
          (if (Value.NonRef).is_ref then
            [Event.EDeref (Exp.mk (.Single (.Base 0)) 3
              (.Move 1 .FromUser)).loc] else []), []⟩,
        [Value.NonRef]) := by
  have h1 : exp traceOps ⟨[], []⟩
      (.mk (.Single (.Base 0)) 3 (.Move 1 .FromUser)) =
      some (⟨[] ++ [Event.EMove 3 1 false], []⟩, [Value.NonRef]) := by
    rw [exp]; simp [traceOps, MoveOpAnnotation.isInferredLastUsage]
  have h2 : exp traceOps ⟨[] ++ [Event.EMove 3 1 false], []⟩
      (.mk (.Single (.Base 0)) 4 (.Copy 2)) =
      some (⟨[] ++ [Event.EMove 3 1 false] ++ [Event.ECopy 4 2], []⟩,
        [Value.NonRef]) := by
    rw [exp]; simp [traceOps]
  exact exp_applies_ops_left_to_right.1 (.Single (.Base 0)) 5
    (.mk (.Single (.Base 0)) 3 (.Move 1 .FromUser))
    (.mk (.Single (.Base 0)) 4 (.Copy 2)) .Eq []
    [Event.EMove 3 1 false] [Event.ECopy 4 2] Value.NonRef Value.NonRef
    (Or.inl rfl) h1 h2

/-- C5: Break and Continue commands and Unreachable expressions hit a panic
(modelled as the none result) for every operation record, without touching
the diagnostics; and on well-typed input under the invariant that
base-typed locals never hold references, every other command and
expression form completes without panicking. -/
theorem break_continue_unreachable_panic_others_do_not :
    (∀ (σ δ : Type) (ops : StateOps σ δ) (context : Context σ δ)
      (cloc : Loc) (ty : Type_) (eloc : Loc),
      command ops context ⟨cloc, .Break⟩ = none ∧
      command ops context ⟨cloc, .Continue⟩ = none ∧
      exp ops context (.mk ty eloc .Unreachable) = none) ∧
    (∀ (Γ : TypeEnv) (c : Command) (s : MState) (d : List MDiag),
      StateOK Γ s = true → cmdWellTyped Γ c = true →
      (command specOps ⟨s, d⟩ c).isSome) ∧
    (∀ (Γ : TypeEnv) (e : Exp) (s : MState) (d : List MDiag),
      StateOK Γ s = true → wellTyped Γ e = true →
      (exp specOps ⟨s, d⟩ e).isSome) := by
  refine ⟨?_, ?_, ?_⟩
  · intro σ δ ops context cloc ty eloc
    refine ⟨?_, ?_, ?_⟩
    · rw [command]
    · rw [command]
    · rw [exp]
  · intro Γ c s d hok hwt
    obtain ⟨c2, hc2, _⟩ := cmdPreserve Γ c s d hok hwt
    rw [hc2]; rfl
  · intro Γ e s d hok hwt
    obtain ⟨s2, d2, vs, he, _, _⟩ := expPreserve Γ e s d hok hwt
    rw [he]; rfl

/-- Witness for C5: a well-typed assignment of a constant to local 0 in a
one-local environment completes. -/
theorem break_continue_unreachable_panic_others_do_not_witness :
    (command specOps ⟨demoState, []⟩ ⟨7, .Break⟩ = none ∧
      command specOps ⟨demoState, []⟩ ⟨7, .Continue⟩ = none ∧
      exp specOps ⟨demoState, []⟩ (.mk .Unit 7 .Unreachable) = none) ∧
    (command specOps ⟨demoState, []⟩
      ⟨4, .Assign [.Var 5 0] (.mk (.Single (.Base 0)) 6 .Value)⟩).isSome := by
  constructor
  · exact (break_continue_unreachable_panic_others_do_not.1 MState MDiag
      specOps ⟨demoState, []⟩ 7 .Unit 7)
  · refine break_continue_unreachable_panic_others_do_not.2.1 [(0, .Base 0)]
      ⟨4, .Assign [.Var 5 0] (.mk (.Single (.Base 0)) 6 .Value)⟩
      demoState [] (by decide) ?_
    rw [cmdWellTyped]
    simp only []
    rw [wellTyped]
    simp [lvaluesWT, lvalueWT, lookupTy, Type_.typesOf, SingleType.isBase,
      tyIsSingle, Exp.ty, List.zip]

/-- C6: whenever expression evaluation succeeds (over any operation record
whose call yields one value per declared return type, as the spec-modelled
record does), the returned value sequence has exactly the static arity the
design document assigns to the expression form: zero for Unit, the item
concatenation for an ExpList, one value per declared return type for
calls, and exactly one value for every other form. -/
theorem exp_result_matches_static_arity (σ δ : Type) (ops : StateOps σ δ)
    (hcall : ∀ (st : σ) (l : Loc) (vs : Values) (acq : List (StructName × Loc))
      (ty : Type_), ((ops.call st l vs acq ty).2.2).length = ty.typesOf.length)
    (context : Context σ δ) (e : Exp) (r : Context σ δ × Values)
    (h : exp ops context e = some r) : r.2.length = expArity e :=
  expArity_aux ops hcall context e r h

/-- Witness for C6: a constant expression evaluates to one value, matching
its arity. -/
theorem exp_result_matches_static_arity_witness :
    (exp specOps ⟨demoState, []⟩ (.mk (.Single (.Base 0)) 1 .Value) =
      some (⟨demoState, []⟩, [Value.NonRef])) ∧
    ([Value.NonRef].length =
      expArity (.mk (.Single (.Base 0)) 1 .Value)) := by
  have h : exp specOps ⟨demoState, []⟩ (.mk (.Single (.Base 0)) 1 .Value) =
      some (⟨demoState, []⟩, [Value.NonRef]) := by rw [exp]
  exact ⟨h, exp_result_matches_static_arity MState MDiag specOps
    specOps_call_arity ⟨demoState, []⟩ (.mk (.Single (.Base 0)) 1 .Value)
    (⟨demoState, []⟩, [Value.NonRef]) h⟩

/-- C8: diagnostics never abort the command transfer function: the result
of a command on a context that already carries diagnostics is the result on
the diagnostic-free context with those diagnostics prepended, so every
operation's diagnostics are accumulated while the remaining operations keep
running on the resulting state; concretely, one Return of two moved-from
unassigned locals surfaces two diagnostics in one pass. -/
theorem diagnostics_accumulate_never_abort :
    (∀ (σ δ : Type) (ops : StateOps σ δ) (c : Command) (s : σ) (d : List δ),
      command ops ⟨s, d⟩ c = (command ops ⟨s, []⟩ c).map (prependDiagsC d)) ∧
    ((command specOps ⟨demoUnassigned, []⟩
        ⟨9, .Return (.mk (.Multiple [.Base 0, .Base 0]) 8
          (.ExpList [.Single (.mk (.Single (.Base 0)) 6 (.Move 0 .FromUser)),
            .Single (.mk (.Single (.Base 0)) 7 (.Move 0 .FromUser))]))⟩).map
      (fun c => c.diags.length) = some 2) := by
  constructor
  · intro σ δ ops c s d
    exact command_diag_shift ops c s d
  · have hm : ∀ l : Loc, exp specOps ⟨demoUnassigned, []⟩
        (.mk (.Single (.Base 0)) l (.Move 0 .FromUser)) =
        some (⟨demoUnassigned, [.UnassignedVariable l 0]⟩, [Value.NonRef]) := by
      intro l
      rw [exp]
      simp [specOps, MState.move_local, demoUnassigned, MState.status,
        lookupStatus]
    have h2 : exp specOps ⟨demoUnassigned, []⟩
        (.mk (.Multiple [.Base 0, .Base 0]) 8
          (.ExpList [.Single (.mk (.Single (.Base 0)) 6 (.Move 0 .FromUser)),
            .Single (.mk (.Single (.Base 0)) 7 (.Move 0 .FromUser))])) =
        some (⟨demoUnassigned,
          [.UnassignedVariable 6 0, .UnassignedVariable 7 0]⟩,
          [Value.NonRef, Value.NonRef]) := by
      rw [exp]
      simp only [expListItems, exp_list_item, hm]
      have hm7 : exp specOps ⟨demoUnassigned, [MDiag.UnassignedVariable 6 0]⟩
          (.mk (.Single (.Base 0)) 7 (.Move 0 .FromUser)) =
          some (⟨demoUnassigned,
            [.UnassignedVariable 6 0, .UnassignedVariable 7 0]⟩,
            [Value.NonRef]) := by
        rw [exp]
        simp [specOps, MState.move_local, demoUnassigned, MState.status,
          lookupStatus]
      simp [hm7]
    rw [command]
    simp only [h2]
    simp [specOps, MState.return_, demoUnassigned]

end Move
